import Mathlib

/-!
Shallow embedding of the graph-based fraud-detection core of the
repository: the function analyze_payroll of app/modules/ghost.py together
with its configuration (config.py, class GraphFraudConfig), and the
NetworkX variant app/modules/graph_fraud.py.

Machine floats of the source are modelled as exact rationals.  The
presentational pieces of the output (the f-string "explanation" entries
and the display rounding round(x, k)) are not modelled; every analytical
quantity is.  Library calls into NetworkX (add_edge, has_edge,
connected_components, subgraph, number_of_edges, degree and the three
centrality routines) are modelled by their documented semantics on an
undirected simple graph kept as an association list of unordered edges.
-/

/-- Employee record of the ghost.py payroll CSV: the columns Employee_ID,
Name, Mobile, Bank_Acc used by analyze_payroll.  A missing CSV cell is
read by pandas as NaN and is modelled as none. -/
structure Employee where
  Employee_ID : String
  Name : String
  Mobile : Option String
  Bank_Acc : Option String
deriving DecidableEq, Inhabited

/-- Edge attribute dictionary attached by ghost.py: connection_type,
shared_value and weight. -/
structure EdgeData where
  connection_type : String
  shared_value : String
  weight : ℚ
deriving DecidableEq, Inhabited

/-- Unordered comparison of two endpoint pairs: NetworkX stores an
undirected edge once and matches it in either orientation. -/
def sameUB (a b : String × String) : Bool :=
  (a.1 == b.1 && a.2 == b.2) || (a.1 == b.2 && a.2 == b.1)

/-- NetworkX G.has_edge over an association list of undirected edges. -/
def hasEdgeB (es : List ((String × String) × α)) (u v : String) : Bool :=
  es.any (fun e => sameUB e.1 (u, v))

/-- NetworkX G.add_edge update semantics: if the unordered pair already has
an edge, its attribute record is rewritten from the current one; otherwise
a fresh edge is appended. -/
def upsert (es : List ((String × String) × α)) (u v : String) (f : Option α → α) :
    List ((String × String) × α) :=
  if hasEdgeB es u v then
    es.map (fun e => if sameUB e.1 (u, v) then (e.1, f (some e.2)) else e)
  else
    es ++ [((u, v), f none)]

/-- Insertion-ordered duplicate removal, the key order of a Python dict. -/
def dedupFirst (l : List String) : List String :=
  l.foldl (fun acc v => if acc.contains v then acc else acc ++ [v]) []

/-- Pandas df.groupby(col)[id].apply(list) as used by ghost.py: every
attribute value that occurs (rows with a missing value are dropped by
groupby) paired with the identifiers of the records carrying it, in row
order. -/
def groupValues (records : List Employee) (f : Employee → Option String) :
    List (String × List String) :=
  (dedupFirst (records.filterMap f)).map
    (fun v => (v, (records.filter (fun r => f r == some v)).map
      (fun r => r.Employee_ID)))

/-- Ordered index pairs i < j of a list: the double loop of the clique
construction. -/
def listPairs : List String → List (String × String)
  | [] => []
  | x :: xs => xs.map (fun y => (x, y)) ++ listPairs xs

/-- Flattened form of the nested loops of ghost.py lines 97-107 and
111-125: for every attribute value shared by at least two employees, all
index pairs of its group, tagged with the shared value. -/
def sharedPairs (records : List Employee) (f : Employee → Option String) :
    List (String × (String × String)) :=
  (groupValues records f).flatMap
    (fun g => if 1 < g.2.length then (listPairs g.2).map (fun p => (g.1, p)) else [])

/-- Edge insertion for a pair of employees sharing a mobile number
(ghost.py lines 103-107). -/
def addMobileEdge (es : List ((String × String) × EdgeData))
    (it : String × (String × String)) : List ((String × String) × EdgeData) :=
  upsert es it.2.1 it.2.2 (fun _ => ⟨"shared_mobile", it.1, 2⟩)

/-- Edge insertion or strengthening for a pair of employees sharing a bank
account (ghost.py lines 116-125): an existing edge has ",shared_bank"
appended to its connection_type and its weight raised to 5.0; otherwise a
fresh weight 2.0 edge is created. -/
def addBankEdge (es : List ((String × String) × EdgeData))
    (it : String × (String × String)) : List ((String × String) × EdgeData) :=
  upsert es it.2.1 it.2.2 (fun old =>
    match old with
    | some d => ⟨d.connection_type ++ ",shared_bank", d.shared_value, 5⟩
    | none => ⟨"shared_bank", it.1, 2⟩)

/-- Edge list built by analyze_payroll: the shared-mobile pass followed by
the shared-bank pass. -/
def ghostEdges (records : List Employee) : List ((String × String) × EdgeData) :=
  (sharedPairs records (fun r => r.Bank_Acc)).foldl addBankEdge
    ((sharedPairs records (fun r => r.Mobile)).foldl addMobileEdge [])

/-- In-memory graph of analyze_payroll: one node per employee identifier
(dict-keyed, so duplicates collapse to the first position) and the
accumulated undirected edge list. -/
structure Graph where
  nodes : List String
  edges : List ((String × String) × EdgeData)
deriving DecidableEq

def ghostGraph (records : List Employee) : Graph :=
  { nodes := dedupFirst (records.map (fun r => r.Employee_ID))
    edges := ghostEdges records }

/-- Merge into one part every part containing an endpoint of a new edge:
one union step of the connected-component computation. -/
def mergeParts (parts : List (List String)) (u v : String) : List (List String) :=
  (parts.filter (fun p => p.contains u || p.contains v)).flatten ::
    parts.filter (fun p => !(p.contains u || p.contains v))

/-- Partition into connected components: nx.connected_components modelled
as union-find over the edge list, starting from singleton parts. -/
def componentsOf (nodes : List String) (keys : List (String × String)) :
    List (List String) :=
  keys.foldl (fun parts k => mergeParts parts k.1 k.2) (nodes.map (fun v => [v]))

def ghostComponents (records : List Employee) : List (List String) :=
  componentsOf (ghostGraph records).nodes ((ghostEdges records).map Prod.fst)

namespace GraphFraudConfig

/-- Minimum size for a suspicious cluster (config.py line 43). -/
def MIN_CLIQUE_SIZE : ℕ := 2

/-- Size that triggers a high alert (config.py line 44). -/
def SUSPICIOUS_CLIQUE_SIZE : ℕ := 3

/-- Centrality algorithm selector (config.py line 47). -/
def CENTRALITY_ALGORITHM : String := "betweenness"

/-- Density above which a large cluster is critical (config.py line 52). -/
def HIGH_DENSITY_THRESHOLD : ℚ := 7 / 10

end GraphFraudConfig

/-- Subgraph node list of G.subgraph(component): the view iterates the
nodes of the original graph restricted to the component. -/
def subgraphNodes (g : Graph) (comp : List String) : List String :=
  g.nodes.filter (fun v => comp.contains v)

/-- Edges of the original graph with both endpoints in the component, the
edge set of G.subgraph(component). -/
def subgraphEdges (es : List ((String × String) × α)) (comp : List String) :
    List ((String × String) × α) :=
  es.filter (fun e => comp.contains e.1.1 && comp.contains e.1.2)

/-- Graph density 2E / (V (V - 1)) for V > 1 and 0 otherwise, exactly as
computed at ghost.py lines 149-154 (and again for the whole graph at lines
200-202). -/
def density (n e : ℕ) : ℚ :=
  if 1 < n then (2 * e : ℚ) / ((n : ℚ) * ((n : ℚ) - 1)) else 0

/-- Severity rule of ghost.py lines 156-160 for a flagged cluster. -/
def severityOf (size : ℕ) (d : ℚ) : String :=
  if GraphFraudConfig.SUSPICIOUS_CLIQUE_SIZE ≤ size then
    if GraphFraudConfig.HIGH_DENSITY_THRESHOLD < d then "CRITICAL" else "HIGH"
  else "MEDIUM"

/-- Weighted neighbor list of v: each incident edge in either orientation,
the weight read as the traversal cost (nx betweenness with
weight equal to the stored attribute). -/
def neighborsW (es : List ((String × String) × EdgeData)) (w : EdgeData → ℚ)
    (v : String) : List (String × ℚ) :=
  es.filterMap (fun e =>
    if e.1.1 == v then some (e.1.2, w e.2)
    else if e.1.2 == v then some (e.1.1, w e.2) else none)

/-- Simple paths from cur to t avoiding the visited vertices, with their
accumulated cost; fuel bounds the recursion by the vertex count.  The edge
weights of the analysis are positive, so minimum-cost walks are simple
paths and this enumeration determines the shortest-path structure used by
the Dijkstra-based centrality routines. -/
def simplePathsAux (es : List ((String × String) × EdgeData)) (w : EdgeData → ℚ)
    (t : String) : ℕ → String → List String → List (List String × ℚ)
  | 0, _, _ => []
  | fuel + 1, cur, visited =>
    if cur == t then [([cur], 0)]
    else (neighborsW es w cur).flatMap (fun nb =>
      if visited.contains nb.1 then []
      else (simplePathsAux es w t fuel nb.1 (nb.1 :: visited)).map
        (fun pd => (cur :: pd.1, nb.2 + pd.2)))

def simplePaths (es : List ((String × String) × EdgeData)) (w : EdgeData → ℚ)
    (fuel : ℕ) (s t : String) : List (List String × ℚ) :=
  simplePathsAux es w t fuel s [s]

def minWeight : List ℚ → Option ℚ
  | [] => none
  | x :: xs => some (xs.foldl min x)

/-- Dependency of the ordered pair (s, t) on v: the fraction of the
minimum-cost s-t paths passing through v. -/
def pairDependency (es : List ((String × String) × EdgeData)) (w : EdgeData → ℚ)
    (fuel : ℕ) (s t v : String) : ℚ :=
  let ps := simplePaths es w fuel s t
  match minWeight (ps.map (fun p => p.2)) with
  | none => 0
  | some d =>
    let short := ps.filter (fun p => decide (p.2 = d))
    ((short.filter (fun p => p.1.contains v)).length : ℚ) / (short.length : ℚ)

/-- Brandes accumulation: sum of pair dependencies over all ordered pairs
of distinct endpoints avoiding v. -/
def betweennessRaw (nodes : List String) (es : List ((String × String) × EdgeData))
    (v : String) : ℚ :=
  ((nodes.flatMap (fun s => nodes.map (fun t => (s, t)))).filter
    (fun st => !(st.1 == st.2) && !(st.1 == v) && !(st.2 == v))).foldl
    (fun acc st =>
      acc + pairDependency es (fun d => d.weight) (nodes.length + 1) st.1 st.2 v) 0

/-- nx.betweenness_centrality(subgraph, weight := the stored weight): the
default normalization divides the ordered-pair accumulation by
(n - 1)(n - 2) for n > 2 and leaves it unscaled for n at most 2; returned
in node order. -/
def betweennessCentrality (nodes : List String)
    (es : List ((String × String) × EdgeData)) : List (String × ℚ) :=
  nodes.map (fun v =>
    (v, if nodes.length ≤ 2 then betweennessRaw nodes es v
        else betweennessRaw nodes es v /
          (((nodes.length : ℚ) - 1) * ((nodes.length : ℚ) - 2))))

/-- Number of incident edge ends at v (nx degree). -/
def degreeOf (es : List ((String × String) × α)) (v : String) : ℕ :=
  (es.filter (fun e => e.1.1 == v)).length + (es.filter (fun e => e.1.2 == v)).length

/-- nx.degree_centrality: degree divided by n - 1, with graphs of at most
one node special-cased to score 1. -/
def degreeCentrality (nodes : List String)
    (es : List ((String × String) × EdgeData)) : List (String × ℚ) :=
  if nodes.length ≤ 1 then nodes.map (fun v => (v, 1))
  else nodes.map (fun v => (v, (degreeOf es v : ℚ) / ((nodes.length : ℚ) - 1)))

/-- Unweighted hop distance via the simple-path enumeration. -/
def hopDist (es : List ((String × String) × EdgeData)) (fuel : ℕ)
    (s t : String) : Option ℚ :=
  minWeight ((simplePaths es (fun _ => 1) fuel s t).map (fun p => p.2))

/-- nx.closeness_centrality with the default improved formula:
(r - 1) / S scaled by (r - 1) / (n - 1), where r counts the vertices
reachable from v (v included) and S sums their hop distances; 0 when S is
0 or the graph has one node. -/
def closenessCentrality (nodes : List String)
    (es : List ((String × String) × EdgeData)) : List (String × ℚ) :=
  nodes.map (fun v =>
    let ds := nodes.filterMap (fun u => hopDist es (nodes.length + 1) u v)
    let tot := ds.foldl (fun a b => a + b) 0
    let r := ds.length
    (v, if 0 < tot ∧ 1 < nodes.length
        then (((r : ℚ) - 1) / tot) * (((r : ℚ) - 1) / ((nodes.length : ℚ) - 1))
        else 0))

/-- Centrality dispatch of ghost.py lines 166-173: an unrecognized
algorithm name falls through to the final else branch, which computes
betweenness again. -/
def centralityOf (alg : String) (nodes : List String)
    (es : List ((String × String) × EdgeData)) : List (String × ℚ) :=
  if alg = "betweenness" then betweennessCentrality nodes es
  else if alg = "degree" then degreeCentrality nodes es
  else if alg = "closeness" then closenessCentrality nodes es
  else betweennessCentrality nodes es

/-- Python max(centrality, key := centrality.get): left fold over the
mapping in iteration order keeping the first entry of maximal score. -/
def pyMax : List (String × ℚ) → Option (String × ℚ)
  | [] => none
  | x :: xs => some (xs.foldl (fun best y => if best.2 < y.2 then y else best) x)

/-- First record carrying the identifier u
(df[df.Employee_ID == u] takes rows in order). -/
def recOf (records : List Employee) (u : String) : Option Employee :=
  records.find? (fun r => r.Employee_ID == u)

def nameOf (records : List Employee) (u : String) : String :=
  ((recOf records u).map (fun r => r.Name)).getD ""

structure Kingpin where
  employee_id : String
  name : String
  centrality_score : ℚ
  centrality_type : String
deriving DecidableEq, Inhabited

structure Cluster where
  cluster_id : ℕ
  size : ℕ
  severity : String
  graph_density : ℚ
  num_edges : ℕ
  employees : List Employee
  algorithm : String
  kingpin : Kingpin
deriving DecidableEq, Inhabited

/-- Suspicious-cluster record assembled at ghost.py lines 141-196 for the
component of index idx (0-based enumerate; cluster_id is idx + 1). -/
def mkCluster (records : List Employee) (alg : String) (g : Graph) (idx : ℕ)
    (comp : List String) : Cluster :=
  let sn := subgraphNodes g comp
  let se := subgraphEdges g.edges comp
  let d := density comp.length se.length
  let kp := (pyMax (centralityOf alg sn se)).getD ("", 0)
  { cluster_id := idx + 1
    size := comp.length
    severity := severityOf comp.length d
    graph_density := d
    num_edges := se.length
    employees := records.filter (fun r => comp.contains r.Employee_ID)
    algorithm := "Connected Components (DFS-based)"
    kingpin := ⟨kp.1, nameOf records kp.1, kp.2, alg⟩ }

/-- Flagged clusters of analyze_payroll: the components whose size reaches
MIN_CLIQUE_SIZE, in component order. -/
def ghostClusters (records : List Employee) (alg : String) : List Cluster :=
  ((ghostComponents records).enum).filterMap (fun ic =>
    if GraphFraudConfig.MIN_CLIQUE_SIZE ≤ ic.2.length then
      some (mkCluster records alg (ghostGraph records) ic.1 ic.2)
    else none)

structure GraphMetrics where
  total_nodes : ℕ
  total_edges : ℕ
  overall_density : ℚ
  algorithm_complexity : String
  centrality_algorithm : String
deriving DecidableEq

structure Report where
  total_employees : ℕ
  total_clusters_found : ℕ
  suspicious_clusters : ℕ
  clusters : List Cluster
  graph_metrics : GraphMetrics
  status : String
  integrity_score : ℚ
deriving DecidableEq

/-- Integrity score of ghost.py lines 204-211, as a function of the flagged
cluster sizes and the total record count. -/
def integrityScore (clusterSizes : List ℕ) (total : ℕ) : ℚ :=
  if clusterSizes = [] then 100
  else max 0 (100 - ((clusterSizes.sum : ℚ) / (total : ℚ) * 100) * 2)

/-- analyze_payroll with the centrality algorithm as an explicit parameter
(the source reads it from the GraphFraudConfig global and also echoes it in
two output fields). -/
def ghostAnalyzeWith (alg : String) (records : List Employee) : Report :=
  let g := ghostGraph records
  let comps := ghostComponents records
  let cls := ghostClusters records alg
  { total_employees := records.length
    total_clusters_found := comps.length
    suspicious_clusters := cls.length
    clusters := cls
    graph_metrics :=
      { total_nodes := g.nodes.length
        total_edges := g.edges.length
        overall_density := density g.nodes.length g.edges.length
        algorithm_complexity := "O(V × E)"
        centrality_algorithm := alg }
    status := if cls = [] then "CLEAR" else "WARNING"
    integrity_score := integrityScore (cls.map (fun c => c.size)) records.length }

/-- Entry point analyze_payroll with the configured algorithm. -/
def analyze_payroll (records : List Employee) : Report :=
  ghostAnalyzeWith GraphFraudConfig.CENTRALITY_ALGORITHM records

/-- Attribute of the record resolved by an identifier. -/
def attrOf (records : List Employee) (f : Employee → Option String)
    (u : String) : Option String :=
  (recOf records u).bind f

/-- Two identifiers share a mobile number: both resolve to a record and the
records carry the same non-missing Mobile value. -/
def sharesMobile (records : List Employee) (u v : String) : Prop :=
  attrOf records (fun r => r.Mobile) u ≠ none ∧
    attrOf records (fun r => r.Mobile) u = attrOf records (fun r => r.Mobile) v

/-- Two identifiers share a bank account, analogously to sharesMobile. -/
def sharesBank (records : List Employee) (u v : String) : Prop :=
  attrOf records (fun r => r.Bank_Acc) u ≠ none ∧
    attrOf records (fun r => r.Bank_Acc) u = attrOf records (fun r => r.Bank_Acc) v

instance (records : List Employee) (u v : String) :
    Decidable (sharesMobile records u v) := by
  unfold sharesMobile; exact inferInstance

instance (records : List Employee) (u v : String) :
    Decidable (sharesBank records u v) := by
  unfold sharesBank; exact inferInstance

/-- Completeness of the subgraph induced on comp: every two distinct
members are joined by an edge. -/
def SubgraphComplete (comp : List String) (es : List ((String × String) × α)) : Prop :=
  ∀ u ∈ comp, ∀ v ∈ comp, u ≠ v → hasEdgeB es u v = true

instance (comp : List String) (es : List ((String × String) × α)) :
    Decidable (SubgraphComplete comp es) := by
  unfold SubgraphComplete; exact inferInstance

/-- Structural invariant of an undirected NetworkX edge list: no self-loop
and at most one stored edge per unordered pair. -/
def EdgeKeysOK (es : List ((String × String) × α)) : Prop :=
  (∀ e ∈ es, e.1.1 ≠ e.1.2) ∧
    (es.map Prod.fst).Pairwise (fun a b => sameUB a b = false)

instance (es : List ((String × String) × α)) : Decidable (EdgeKeysOK es) := by
  unfold EdgeKeysOK; exact inferInstance

/-- Payroll row of graph_fraud.py after _load_payroll_dataframe selected
the expected columns: employee_id, name, mobile, address, bank_account,
with a missing cell as none before the astype(str) conversion. -/
structure GFEmployee where
  employee_id : String
  name : String
  mobile : Option String
  address : Option String
  bank_account : Option String
deriving DecidableEq, Inhabited

/-- Pandas astype(str): the NaN of a missing cell becomes the string
"nan". -/
def asStr (v : Option String) : String := v.getD "nan"

structure GFEdge where
  weight : ℕ
  reason : String
deriving DecidableEq, Inhabited

/-- Pandas df.groupby(column)[id].apply(list) in graph_fraud.py: the
dataframe was converted with astype(str), so grouping is over plain
strings and no group is dropped. -/
def gfGroupValues (df : List GFEmployee) (f : GFEmployee → Option String) :
    List (String × List String) :=
  (dedupFirst (df.map (fun r => asStr (f r)))).map
    (fun v => (v, (df.filter (fun r => asStr (f r) == v)).map
      (fun r => r.employee_id)))

/-- connect_by of _build_networkx_graph (graph_fraud.py lines 77-90): skip
groups with a falsy value (the empty string) or fewer than two members,
otherwise connect all pairs, incrementing the weight of an edge that
already exists and keeping its original reason. -/
def gfConnectBy (df : List GFEmployee) (col : String)
    (f : GFEmployee → Option String)
    (es : List ((String × String) × GFEdge)) : List ((String × String) × GFEdge) :=
  (gfGroupValues df f).foldl
    (fun acc g =>
      if g.1 ≠ "" ∧ 1 < g.2.length then
        (listPairs g.2).foldl
          (fun acc2 p => upsert acc2 p.1 p.2 (fun old =>
            match old with
            | some d => ⟨d.weight + 1, d.reason⟩
            | none => ⟨1, col⟩)) acc
      else acc) es

structure GFGraph where
  nodes : List String
  edges : List ((String × String) × GFEdge)
deriving DecidableEq

/-- _build_networkx_graph: all employee nodes, then connect_by over the
columns mobile, address, bank_account in order. -/
def gfGraphOf (df : List GFEmployee) : GFGraph :=
  { nodes := dedupFirst (df.map (fun r => r.employee_id))
    edges :=
      gfConnectBy df "bank_account" (fun r => r.bank_account)
        (gfConnectBy df "address" (fun r => r.address)
          (gfConnectBy df "mobile" (fun r => r.mobile) [])) }

def gfComponents (df : List GFEmployee) : List (List String) :=
  componentsOf (gfGraphOf df).nodes ((gfGraphOf df).edges.map Prod.fst)

structure RiskyCluster where
  size : ℕ
  employee_ids : List String
  avg_degree : ℚ
  description : String
deriving DecidableEq

/-- _find_risky_clusters of graph_fraud.py: keep the connected components
with MORE than min_size members (strict comparison at line 103). -/
def find_risky_clusters (g : GFGraph) (min_size : ℕ) : List RiskyCluster :=
  (componentsOf g.nodes (g.edges.map Prod.fst)).filterMap (fun comp =>
    if min_size < comp.length then
      some { size := comp.length
             employee_ids := comp
             avg_degree :=
               ((comp.map (fun v => degreeOf (subgraphEdges g.edges comp) v)).sum : ℚ) /
                 (comp.length : ℚ)
             description :=
               "Employees sharing contact or banking details - possible ghost or syndicate." }
    else none)

/-- scan_payroll_csv result of graph_fraud.py (the optional Neo4j push is a
fire-and-forget side integration and is not modelled). -/
structure GFReport where
  num_employees : ℕ
  num_edges : ℕ
  num_risky_clusters : ℕ
  risky_clusters : List RiskyCluster
deriving DecidableEq

def scan_payroll_csv (df : List GFEmployee) (min_cluster_size : ℕ) : GFReport :=
  let g := gfGraphOf df
  let rc := find_risky_clusters g min_cluster_size
  { num_employees := g.nodes.length
    num_edges := g.edges.length
    num_risky_clusters := rc.length
    risky_clusters := rc }

/-! Concrete record sets used by the counterexamples and witnesses. -/

/-- Two employees sharing a mobile number, listed with identifier B in the
first CSV row and A in the second. -/
def exBA : List Employee :=
  [⟨"B", "Bob", some "111", some "B1"⟩, ⟨"A", "Alice", some "111", some "B2"⟩]

/-- Two employees sharing both a mobile number and a bank account. -/
def exBoth : List Employee :=
  [⟨"A", "Alice", some "111", some "B9"⟩, ⟨"B", "Bob", some "111", some "B9"⟩]

/-- One employee with no attributes shared with anyone. -/
def exSingle : List Employee := [⟨"X", "Xena", none, none⟩]

/-- Two ghost.py employees with a missing mobile cell and distinct bank
accounts. -/
def ghBlank : List Employee :=
  [⟨"G1", "Gina", none, some "K1"⟩, ⟨"G2", "Hal", none, some "K2"⟩]

/-- Two graph_fraud.py rows with a missing mobile cell and all the other
attributes distinct. -/
def gfBlank : List GFEmployee :=
  [⟨"B1", "Ann", none, some "addr1", some "acc1"⟩,
   ⟨"B2", "Cid", none, some "addr2", some "acc2"⟩]

/-- Two graph_fraud.py rows sharing only a mobile number. -/
def gfTwo : List GFEmployee :=
  [⟨"G1", "Ann", some "111", some "a1", some "k1"⟩,
   ⟨"G2", "Cid", some "111", some "a2", some "k2"⟩]

/-- The single flagged cluster of the exBA analysis. -/
def c0BA : Cluster := ((ghostAnalyzeWith "betweenness" exBA).clusters).headD default

/-- The merged strengthened edge of the exBoth graph. -/
def e5Both : (String × String) × EdgeData :=
  (("A", "B"), ⟨"shared_mobile,shared_bank", "111", 5⟩)

/-! Basic lemmas about the unordered edge-key comparison. -/

theorem sameUB_refl (k : String × String) : sameUB k k = true := by
  simp [sameUB]

theorem sameUB_true_iff {a b : String × String} :
    sameUB a b = true ↔ (a.1 = b.1 ∧ a.2 = b.2) ∨ (a.1 = b.2 ∧ a.2 = b.1) := by
  simp [sameUB]

theorem bool_eq_false {b : Bool} (h : ¬ b = true) : b = false := by
  cases b
  · rfl
  · exact absurd rfl h

theorem sameUB_symm {a b : String × String} (h : sameUB a b = true) :
    sameUB b a = true := by
  rcases sameUB_true_iff.mp h with ⟨h1, h2⟩ | ⟨h1, h2⟩ <;>
    exact sameUB_true_iff.mpr (by tauto)

theorem sameUB_trans {a b c : String × String} (h1 : sameUB a b = true)
    (h2 : sameUB b c = true) : sameUB a c = true := by
  rcases sameUB_true_iff.mp h1 with ⟨x1, x2⟩ | ⟨x1, x2⟩ <;>
    rcases sameUB_true_iff.mp h2 with ⟨y1, y2⟩ | ⟨y1, y2⟩
  · exact sameUB_true_iff.mpr (Or.inl ⟨x1.trans y1, x2.trans y2⟩)
  · exact sameUB_true_iff.mpr (Or.inr ⟨x1.trans y1, x2.trans y2⟩)
  · exact sameUB_true_iff.mpr (Or.inr ⟨x1.trans y2, x2.trans y1⟩)
  · exact sameUB_true_iff.mpr (Or.inl ⟨x1.trans y2, x2.trans y1⟩)

theorem sameUB_comm {a b : String × String} : sameUB a b = sameUB b a := by
  by_cases h : sameUB a b = true
  · rw [h, sameUB_symm h]
  · by_cases h2 : sameUB b a = true
    · exact absurd (sameUB_symm h2) h
    · rw [bool_eq_false h, bool_eq_false h2]

/-! Lemmas about dedupFirst. -/

theorem dedupFirst_aux_mem (l acc : List String) (x : String) :
    x ∈ l.foldl (fun acc v => if acc.contains v then acc else acc ++ [v]) acc ↔
      x ∈ acc ∨ x ∈ l := by
  induction l generalizing acc with
  | nil => simp
  | cons v l ih =>
    simp only [List.foldl_cons]
    rw [ih]
    by_cases hv : acc.contains v
    · simp only [if_pos hv]
      have hvmem : v ∈ acc := by simpa using hv
      constructor
      · rintro (h | h)
        · exact Or.inl h
        · exact Or.inr (List.mem_cons_of_mem _ h)
      · rintro (h | h)
        · exact Or.inl h
        · rcases List.mem_cons.mp h with rfl | h
          · exact Or.inl hvmem
          · exact Or.inr h
    · simp only [if_neg hv, List.mem_append, List.mem_singleton, List.mem_cons]
      tauto

theorem mem_dedupFirst (l : List String) (x : String) :
    x ∈ dedupFirst l ↔ x ∈ l := by
  unfold dedupFirst
  rw [dedupFirst_aux_mem]
  simp

theorem dedupFirst_aux_nodup (l acc : List String) (h : acc.Nodup) :
    (l.foldl (fun acc v => if acc.contains v then acc else acc ++ [v]) acc).Nodup := by
  induction l generalizing acc with
  | nil => simpa using h
  | cons v l ih =>
    simp only [List.foldl_cons]
    by_cases hv : acc.contains v
    · rw [if_pos hv]; exact ih acc h
    · rw [if_neg hv]
      refine ih _ ?_
      have hvmem : v ∉ acc := by simpa using hv
      simp [List.nodup_append, h, hvmem]

theorem dedupFirst_nodup (l : List String) : (dedupFirst l).Nodup :=
  dedupFirst_aux_nodup l [] List.nodup_nil

theorem dedupFirst_aux_eq (l acc : List String) (h : (acc ++ l).Nodup) :
    l.foldl (fun acc v => if acc.contains v then acc else acc ++ [v]) acc =
      acc ++ l := by
  induction l generalizing acc with
  | nil => simp
  | cons v l ih =>
    simp only [List.foldl_cons]
    have hvnot : v ∉ acc := by
      intro hv
      have := (List.nodup_append.mp h).2.2
      exact this hv (List.mem_cons_self v l)
    have hcont : acc.contains v = false := by simpa using hvnot
    rw [hcont]
    simp only [Bool.false_eq_true, if_false]
    have h2 : ((acc ++ [v]) ++ l).Nodup := by
      simpa [List.append_assoc] using h
    rw [ih (acc ++ [v]) h2]
    simp [List.append_assoc]

theorem dedupFirst_eq_self {l : List String} (h : l.Nodup) : dedupFirst l = l := by
  unfold dedupFirst
  simpa using dedupFirst_aux_eq l [] (by simpa using h)

/-! Lemmas about hasEdgeB and upsert. -/

theorem hasEdgeB_true_iff {es : List ((String × String) × α)} {u v : String} :
    hasEdgeB es u v = true ↔ ∃ e ∈ es, sameUB e.1 (u, v) = true := by
  simp [hasEdgeB, List.any_eq_true]

theorem hasEdgeB_false_iff {es : List ((String × String) × α)} {u v : String} :
    hasEdgeB es u v = false ↔ ∀ e ∈ es, sameUB e.1 (u, v) = false := by
  constructor
  · intro h e he
    refine bool_eq_false ?_
    intro hs
    have := hasEdgeB_true_iff.mpr ⟨e, he, hs⟩
    rw [h] at this; cases this
  · intro hall
    refine bool_eq_false ?_
    intro h
    rcases hasEdgeB_true_iff.mp h with ⟨e, he, hs⟩
    rw [hall e he] at hs; cases hs

theorem hasEdgeB_congr {es : List ((String × String) × α)} {u v a b : String}
    (h : sameUB (u, v) (a, b) = true) : hasEdgeB es u v = hasEdgeB es a b := by
  by_cases h1 : hasEdgeB es u v = true
  · rcases hasEdgeB_true_iff.mp h1 with ⟨e, he, hs⟩
    rw [h1, hasEdgeB_true_iff.mpr ⟨e, he, sameUB_trans hs h⟩]
  · by_cases h2 : hasEdgeB es a b = true
    · rcases hasEdgeB_true_iff.mp h2 with ⟨e, he, hs⟩
      exact absurd (hasEdgeB_true_iff.mpr ⟨e, he, sameUB_trans hs (sameUB_symm h)⟩) h1
    · rw [bool_eq_false h1, bool_eq_false h2]

theorem upsert_map_fst (es : List ((String × String) × α)) (u v : String)
    (f : Option α → α) :
    (upsert es u v f).map Prod.fst =
      if hasEdgeB es u v then es.map Prod.fst else es.map Prod.fst ++ [(u, v)] := by
  unfold upsert
  split
  · rw [List.map_map]
    refine List.map_congr_left ?_
    intro e _
    by_cases hs : sameUB e.1 (u, v) = true
    · simp [hs]
    · simp [hs]
  · simp

theorem upsert_mem {es : List ((String × String) × α)} {u v : String}
    {f : Option α → α} {e : (String × String) × α} (h : e ∈ upsert es u v f) :
    (sameUB e.1 (u, v) = false ∧ e ∈ es) ∨
      (sameUB e.1 (u, v) = true ∧
        ((∃ d, (e.1, d) ∈ es ∧ e.2 = f (some d)) ∨
          (e = ((u, v), f none) ∧ hasEdgeB es u v = false))) := by
  unfold upsert at h
  by_cases hh : hasEdgeB es u v = true
  · rw [if_pos hh] at h
    rcases List.mem_map.mp h with ⟨a, ha, hae⟩
    by_cases hs : sameUB a.1 (u, v) = true
    · rw [if_pos hs] at hae
      refine Or.inr ⟨?_, Or.inl ⟨a.2, ?_, ?_⟩⟩
      · rw [← hae]; exact hs
      · rw [← hae]; simpa using ha
      · rw [← hae]
    · rw [if_neg hs] at hae
      exact Or.inl ⟨by rw [← hae]; simpa using hs, by rw [← hae]; exact ha⟩
  · rw [if_neg hh] at h
    have hh2 : hasEdgeB es u v = false := bool_eq_false hh
    rcases List.mem_append.mp h with h2 | h2
    · exact Or.inl ⟨hasEdgeB_false_iff.mp hh2 e h2, h2⟩
    · have he : e = ((u, v), f none) := by simpa using h2
      refine Or.inr ⟨?_, Or.inr ⟨he, hh2⟩⟩
      rw [he]; exact sameUB_refl _

theorem upsert_mem_of_not_match {es : List ((String × String) × α)} {u v : String}
    {f : Option α → α} {e : (String × String) × α} (he : e ∈ es)
    (hs : sameUB e.1 (u, v) = false) : e ∈ upsert es u v f := by
  unfold upsert
  split
  · exact List.mem_map.mpr ⟨e, he, by simp [hs]⟩
  · exact List.mem_append.mpr (Or.inl he)

theorem upsert_hasEdge_self (es : List ((String × String) × α)) (u v : String)
    (f : Option α → α) : hasEdgeB (upsert es u v f) u v = true := by
  unfold upsert
  split
  · next hh =>
    rcases hasEdgeB_true_iff.mp hh with ⟨e, he, hs⟩
    exact hasEdgeB_true_iff.mpr
      ⟨(e.1, f (some e.2)), List.mem_map.mpr ⟨e, he, by simp [hs]⟩, hs⟩
  · exact hasEdgeB_true_iff.mpr
      ⟨((u, v), f none), List.mem_append.mpr (Or.inr (by simp)), sameUB_refl _⟩

theorem upsert_hasEdge_mono {es : List ((String × String) × α)} {a b : String}
    (u v : String) (f : Option α → α) (h : hasEdgeB es a b = true) :
    hasEdgeB (upsert es u v f) a b = true := by
  rcases hasEdgeB_true_iff.mp h with ⟨e, he, hs⟩
  by_cases hm : sameUB e.1 (u, v) = true
  · unfold upsert
    split
    · exact hasEdgeB_true_iff.mpr
        ⟨(e.1, f (some e.2)), List.mem_map.mpr ⟨e, he, by simp [hm]⟩, hs⟩
    · exact hasEdgeB_true_iff.mpr ⟨e, List.mem_append.mpr (Or.inl he), hs⟩
  · exact hasEdgeB_true_iff.mpr ⟨e, upsert_mem_of_not_match he (bool_eq_false hm), hs⟩

theorem upsert_keysOK {es : List ((String × String) × α)} {u v : String}
    (f : Option α → α) (huv : u ≠ v) (h : EdgeKeysOK es) :
    EdgeKeysOK (upsert es u v f) := by
  obtain ⟨h1, h2⟩ := h
  constructor
  · intro e he
    rcases upsert_mem he with ⟨_, hmem⟩ | ⟨hs, hc⟩
    · exact h1 e hmem
    · rcases hc with ⟨d, hd, _⟩ | ⟨he2, _⟩
      · exact h1 (e.1, d) hd
      · rw [he2]; exact huv
  · rw [upsert_map_fst]
    split
    · exact h2
    · next hh =>
      have hh2 : hasEdgeB es u v = false := bool_eq_false hh
      rw [List.pairwise_append]
      refine ⟨h2, List.pairwise_singleton _ _, ?_⟩
      intro k hk p hp
      have hp2 : p = (u, v) := by simpa using hp
      rcases List.mem_map.mp hk with ⟨e, he, hek⟩
      rw [hp2, ← hek]
      exact hasEdgeB_false_iff.mp hh2 e he

/-! Fold-level preservation lemmas. -/

theorem foldl_preserves {α β : Type _} (P : α → Prop) (step : α → β → α)
    (items : List β) (es0 : α) (h : ∀ es it, it ∈ items → P es → P (step es it))
    (h0 : P es0) : P (items.foldl step es0) := by
  induction items generalizing es0 with
  | nil => exact h0
  | cons it items ih =>
    exact ih _ (fun es it2 hm => h es it2 (List.mem_cons_of_mem _ hm))
      (h es0 it (List.mem_cons_self _ _) h0)

theorem foldl_upsert_hasEdge {α β : Type _} (pr : β → String × String)
    (F : β → Option α → α) (items : List β) (es0 : List ((String × String) × α))
    {it : β} (hit : it ∈ items) :
    hasEdgeB (items.foldl (fun es i => upsert es (pr i).1 (pr i).2 (F i)) es0)
      (pr it).1 (pr it).2 = true := by
  induction items generalizing es0 with
  | nil => cases hit
  | cons j items ih =>
    rcases List.mem_cons.mp hit with rfl | h
    · simp only [List.foldl_cons]
      refine foldl_preserves (fun es => hasEdgeB es (pr it).1 (pr it).2 = true)
        _ _ _ ?_ ?_
      · intro es it2 _ hP
        exact upsert_hasEdge_mono _ _ _ hP
      · exact upsert_hasEdge_self _ _ _ _
    · simp only [List.foldl_cons]
      exact ih _ h

/-! Lemmas about listPairs. -/

theorem listPairs_mem {l : List String} {p : String × String}
    (h : p ∈ listPairs l) : p.1 ∈ l ∧ p.2 ∈ l := by
  induction l with
  | nil => cases h
  | cons x xs ih =>
    simp only [listPairs, List.mem_append, List.mem_map] at h
    rcases h with ⟨y, hy, rfl⟩ | h
    · exact ⟨List.mem_cons_self _ _, List.mem_cons_of_mem _ hy⟩
    · rcases ih h with ⟨h1, h2⟩
      exact ⟨List.mem_cons_of_mem _ h1, List.mem_cons_of_mem _ h2⟩

theorem listPairs_irrefl {l : List String} (h : l.Nodup) :
    ∀ p ∈ listPairs l, p.1 ≠ p.2 := by
  induction l with
  | nil => intro p hp; cases hp
  | cons x xs ih =>
    intro p hp
    simp only [listPairs, List.mem_append, List.mem_map] at hp
    rcases hp with ⟨y, hy, rfl⟩ | hp
    · intro he
      have he2 : x = y := he
      refine (List.nodup_cons.mp h).1 ?_
      rw [he2]; exact hy
    · exact ih (List.nodup_cons.mp h).2 p hp

theorem listPairs_complete {l : List String} {u v : String} (hu : u ∈ l)
    (hv : v ∈ l) (huv : u ≠ v) :
    (u, v) ∈ listPairs l ∨ (v, u) ∈ listPairs l := by
  induction l with
  | nil => cases hu
  | cons x xs ih =>
    rcases List.mem_cons.mp hu with rfl | hu2
    · have hv2 : v ∈ xs := by
        rcases List.mem_cons.mp hv with rfl | h
        · exact absurd rfl huv
        · exact h
      left
      simp only [listPairs, List.mem_append, List.mem_map]
      exact Or.inl ⟨v, hv2, rfl⟩
    · rcases List.mem_cons.mp hv with rfl | hv2
      · right
        simp only [listPairs, List.mem_append, List.mem_map]
        exact Or.inl ⟨u, hu2, rfl⟩
      · rcases ih hu2 hv2 with h | h
        · left
          simp only [listPairs, List.mem_append]
          exact Or.inr h
        · right
          simp only [listPairs, List.mem_append]
          exact Or.inr h

theorem listPairs_pairwise {l : List String} (h : l.Nodup) :
    (listPairs l).Pairwise (fun a b => sameUB a b = false) := by
  induction l with
  | nil => exact List.Pairwise.nil
  | cons x xs ih =>
    obtain ⟨hx, hxs⟩ := List.nodup_cons.mp h
    simp only [listPairs]
    rw [List.pairwise_append]
    refine ⟨?_, ih hxs, ?_⟩
    · rw [List.pairwise_map]
      refine List.Pairwise.imp_of_mem ?_ hxs
      intro y1 y2 hy1 hy2 hne
      refine bool_eq_false ?_
      intro hs
      rcases sameUB_true_iff.mp hs with ⟨_, h2⟩ | ⟨h1, _⟩
      · exact hne h2
      · have h1b : x = y2 := h1
        refine absurd ?_ hx
        rw [h1b]; exact hy2
    · intro a ha b hb
      rcases List.mem_map.mp ha with ⟨y, _, rfl⟩
      rcases listPairs_mem hb with ⟨hb1, hb2⟩
      refine bool_eq_false ?_
      intro hs
      rcases sameUB_true_iff.mp hs with ⟨h1, _⟩ | ⟨h1, _⟩
      · have h1b : x = b.1 := h1
        refine absurd ?_ hx
        rw [h1b]; exact hb1
      · have h1b : x = b.2 := h1
        refine absurd ?_ hx
        rw [h1b]; exact hb2

theorem one_lt_length_of_two_mem {l : List String} {u v : String} (hu : u ∈ l)
    (hv : v ∈ l) (huv : u ≠ v) : 1 < l.length := by
  match l with
  | [] => cases hu
  | [x] =>
    have h1 : u = x := by simpa using hu
    have h2 : v = x := by simpa using hv
    exact absurd (h1.trans h2.symm) huv
  | x :: y :: rest => simp only [List.length]; omega

/-! Lemmas about groupValues, recOf and attrOf. -/

theorem groupValues_ids {records : List Employee} {f : Employee → Option String}
    {m : String} {ids : List String} (h : (m, ids) ∈ groupValues records f) :
    ids = (records.filter (fun r => f r == some m)).map (fun r => r.Employee_ID) := by
  unfold groupValues at h
  rcases List.mem_map.mp h with ⟨v, _, heq⟩
  injection heq with h1 h2
  rw [← h2, h1]

theorem groupValues_mem_of {records : List Employee} {f : Employee → Option String}
    {r : Employee} {m : String} (hr : r ∈ records) (hm : f r = some m) :
    (m, (records.filter (fun r => f r == some m)).map (fun r => r.Employee_ID)) ∈
      groupValues records f := by
  unfold groupValues
  refine List.mem_map.mpr ⟨m, ?_, rfl⟩
  rw [mem_dedupFirst]
  exact List.mem_filterMap.mpr ⟨r, hr, hm⟩

theorem group_ids_mem {records : List Employee} {f : Employee → Option String}
    {m : String} {ids : List String} {u : String} (h : (m, ids) ∈ groupValues records f)
    (hu : u ∈ ids) : ∃ r ∈ records, r.Employee_ID = u ∧ f r = some m := by
  rw [groupValues_ids h] at hu
  rcases List.mem_map.mp hu with ⟨r, hr, rfl⟩
  rcases List.mem_filter.mp hr with ⟨hr2, hfr⟩
  exact ⟨r, hr2, rfl, by simpa using hfr⟩

theorem mem_group_ids {records : List Employee} {f : Employee → Option String}
    {m : String} {r : Employee} (hr : r ∈ records) (hm : f r = some m) :
    r.Employee_ID ∈
      (records.filter (fun r => f r == some m)).map (fun r => r.Employee_ID) :=
  List.mem_map.mpr ⟨r, List.mem_filter.mpr ⟨hr, by simp [hm]⟩, rfl⟩

theorem group_ids_nodup {records : List Employee}
    (h : (records.map (fun r => r.Employee_ID)).Nodup) {f : Employee → Option String}
    {m : String} {ids : List String} (hg : (m, ids) ∈ groupValues records f) :
    ids.Nodup := by
  rw [groupValues_ids hg]
  exact ((List.filter_sublist records).map _).nodup h

theorem recOf_eq {records : List Employee}
    (h : (records.map (fun r => r.Employee_ID)).Nodup) {r : Employee}
    (hr : r ∈ records) : recOf records r.Employee_ID = some r := by
  induction records with
  | nil => cases hr
  | cons r0 rest ih =>
    rw [List.map_cons, List.nodup_cons] at h
    rcases List.mem_cons.mp hr with rfl | hr2
    · unfold recOf
      rw [List.find?_cons_of_pos _ (by simp)]
    · have hne : (r0.Employee_ID == r.Employee_ID) = false := by
        refine bool_eq_false ?_
        intro he
        have he2 : r0.Employee_ID = r.Employee_ID := by simpa using he
        exact h.1 (he2 ▸ List.mem_map.mpr ⟨r, hr2, rfl⟩)
      unfold recOf
      rw [List.find?_cons_of_neg _ (by simp at hne ⊢; exact hne)]
      exact ih h.2 hr2

theorem recOf_some {records : List Employee} {u : String} {r : Employee}
    (h : recOf records u = some r) : r ∈ records ∧ r.Employee_ID = u := by
  refine ⟨List.mem_of_find?_eq_some h, ?_⟩
  have := List.find?_some h
  simpa using this

theorem attrOf_eq {records : List Employee}
    (h : (records.map (fun r => r.Employee_ID)).Nodup) {r : Employee}
    (hr : r ∈ records) (f : Employee → Option String) :
    attrOf records f r.Employee_ID = f r := by
  unfold attrOf
  rw [recOf_eq h hr]
  rfl

/-! Lemmas about sharedPairs. -/

theorem sharedPairs_mem {records : List Employee} {f : Employee → Option String}
    {it : String × (String × String)} (h : it ∈ sharedPairs records f) :
    ∃ ids, (it.1, ids) ∈ groupValues records f ∧ 1 < ids.length ∧
      it.2 ∈ listPairs ids := by
  unfold sharedPairs at h
  rcases List.mem_flatMap.mp h with ⟨⟨gv, gids⟩, hg, hit⟩
  by_cases hlen : 1 < gids.length
  · rw [if_pos hlen] at hit
    rcases List.mem_map.mp hit with ⟨p, hp, heq⟩
    refine ⟨gids, ?_, hlen, ?_⟩
    · rw [← heq]; exact hg
    · rw [← heq]; exact hp
  · rw [if_neg hlen] at hit
    cases hit

theorem sharedPairs_of {records : List Employee} {f : Employee → Option String}
    {m : String} {ids : List String} {p : String × String}
    (hg : (m, ids) ∈ groupValues records f) (hlen : 1 < ids.length)
    (hp : p ∈ listPairs ids) : (m, p) ∈ sharedPairs records f := by
  unfold sharedPairs
  refine List.mem_flatMap.mpr ⟨(m, ids), hg, ?_⟩
  rw [if_pos hlen]
  exact List.mem_map.mpr ⟨p, hp, rfl⟩

theorem sharedPairs_item {records : List Employee}
    (hN : (records.map (fun r => r.Employee_ID)).Nodup)
    {f : Employee → Option String} {it : String × (String × String)}
    (h : it ∈ sharedPairs records f) :
    it.2.1 ≠ it.2.2 ∧ attrOf records f it.2.1 = some it.1 ∧
      attrOf records f it.2.2 = some it.1 := by
  rcases sharedPairs_mem h with ⟨ids, hg, _, hp⟩
  have hids : ids.Nodup := group_ids_nodup hN hg
  refine ⟨listPairs_irrefl hids _ hp, ?_, ?_⟩
  · rcases group_ids_mem hg (listPairs_mem hp).1 with ⟨r, hr, hid, hfr⟩
    rw [← hid, attrOf_eq hN hr]
    exact hfr
  · rcases group_ids_mem hg (listPairs_mem hp).2 with ⟨r, hr, hid, hfr⟩
    rw [← hid, attrOf_eq hN hr]
    exact hfr

theorem sharedPairs_complete {records : List Employee}
    {f : Employee → Option String} {u v m : String}
    (hu : attrOf records f u = some m) (hv : attrOf records f v = some m)
    (huv : u ≠ v) :
    ∃ it ∈ sharedPairs records f, sameUB (u, v) it.2 = true := by
  rcases hbu : recOf records u with _ | ru
  · unfold attrOf at hu; rw [hbu] at hu; cases hu
  rcases hbv : recOf records v with _ | rv
  · unfold attrOf at hv; rw [hbv] at hv; cases hv
  have hfu : f ru = some m := by unfold attrOf at hu; rw [hbu] at hu; exact hu
  have hfv : f rv = some m := by unfold attrOf at hv; rw [hbv] at hv; exact hv
  obtain ⟨hru, hruid⟩ := recOf_some hbu
  obtain ⟨hrv, hrvid⟩ := recOf_some hbv
  have hgm := groupValues_mem_of hru hfu
  have humem : u ∈ (records.filter (fun r => f r == some m)).map
      (fun r => r.Employee_ID) := by
    rw [← hruid]; exact mem_group_ids hru hfu
  have hvmem : v ∈ (records.filter (fun r => f r == some m)).map
      (fun r => r.Employee_ID) := by
    rw [← hrvid]; exact mem_group_ids hrv hfv
  have hlen := one_lt_length_of_two_mem humem hvmem huv
  rcases listPairs_complete humem hvmem huv with hpair | hpair
  · exact ⟨(m, (u, v)), sharedPairs_of hgm hlen hpair, sameUB_refl _⟩
  · exact ⟨(m, (v, u)), sharedPairs_of hgm hlen hpair,
      sameUB_true_iff.mpr (Or.inr ⟨rfl, rfl⟩)⟩

theorem groupValues_keys_nodup (records : List Employee)
    (f : Employee → Option String) :
    (groupValues records f).Pairwise (fun g1 g2 => g1.1 ≠ g2.1) := by
  unfold groupValues
  rw [List.pairwise_map]
  refine List.Pairwise.imp ?_ (dedupFirst_nodup _)
  intro a b hab
  exact hab

theorem sharedPairs_pairwise {records : List Employee}
    (hN : (records.map (fun r => r.Employee_ID)).Nodup)
    (f : Employee → Option String) :
    ((sharedPairs records f).map (fun it => it.2)).Pairwise
      (fun a b => sameUB a b = false) := by
  rw [List.pairwise_map]
  unfold sharedPairs
  rw [List.flatMap_def, List.pairwise_flatten]
  constructor
  · intro l hl
    rcases List.mem_map.mp hl with ⟨⟨gv, gids⟩, hg, rfl⟩
    by_cases hlen : 1 < gids.length
    · rw [if_pos hlen, List.pairwise_map]
      exact listPairs_pairwise (group_ids_nodup hN hg)
    · rw [if_neg hlen]
      exact List.Pairwise.nil
  · have hkeys := groupValues_keys_nodup records f
    rw [List.pairwise_map]
    refine List.Pairwise.imp_of_mem ?_ hkeys
    intro g1 g2 hg1 hg2 hne a ha b hb
    obtain ⟨g1v, g1ids⟩ := g1
    obtain ⟨g2v, g2ids⟩ := g2
    by_cases hlen1 : 1 < g1ids.length
    · rw [if_pos hlen1] at ha
      by_cases hlen2 : 1 < g2ids.length
      · rw [if_pos hlen2] at hb
        rcases List.mem_map.mp ha with ⟨p1, hp1, rfl⟩
        rcases List.mem_map.mp hb with ⟨p2, hp2, rfl⟩
        refine bool_eq_false ?_
        intro hs
        have hattr1 : ∀ x ∈ g1ids, attrOf records f x = some g1v := by
          intro x hx
          rcases group_ids_mem hg1 hx with ⟨r, hr, hid, hfr⟩
          rw [← hid, attrOf_eq hN hr]; exact hfr
        have hattr2 : ∀ x ∈ g2ids, attrOf records f x = some g2v := by
          intro x hx
          rcases group_ids_mem hg2 hx with ⟨r, hr, hid, hfr⟩
          rw [← hid, attrOf_eq hN hr]; exact hfr
        rcases sameUB_true_iff.mp hs with ⟨h1, _⟩ | ⟨h1, _⟩
        · have e1 := hattr1 p1.1 (listPairs_mem hp1).1
          have e2 := hattr2 p2.1 (listPairs_mem hp2).1
          have h1b : p1.1 = p2.1 := h1
          rw [h1b, e2] at e1
          exact hne (Option.some.inj e1).symm
        · have e1 := hattr1 p1.1 (listPairs_mem hp1).1
          have e2 := hattr2 p2.2 (listPairs_mem hp2).2
          have h1b : p1.1 = p2.2 := h1
          rw [h1b, e2] at e1
          exact hne (Option.some.inj e1).symm
      · rw [if_neg hlen2] at hb
        cases hb
    · rw [if_neg hlen1] at ha
      cases ha

/-! Congruence of the sharing predicates along unordered key equality. -/

theorem sharesMobile_congr {records : List Employee} {k1 k2 : String × String}
    (h : sameUB k1 k2 = true) (hk : sharesMobile records k2.1 k2.2) :
    sharesMobile records k1.1 k1.2 := by
  unfold sharesMobile at hk ⊢
  rcases sameUB_true_iff.mp h with ⟨h1, h2⟩ | ⟨h1, h2⟩
  · rw [h1, h2]; exact hk
  · rw [h1, h2]
    exact ⟨by rw [← hk.2]; exact hk.1, hk.2.symm⟩

theorem sharesBank_congr {records : List Employee} {k1 k2 : String × String}
    (h : sameUB k1 k2 = true) (hk : sharesBank records k2.1 k2.2) :
    sharesBank records k1.1 k1.2 := by
  unfold sharesBank at hk ⊢
  rcases sameUB_true_iff.mp h with ⟨h1, h2⟩ | ⟨h1, h2⟩
  · rw [h1, h2]; exact hk
  · rw [h1, h2]
    exact ⟨by rw [← hk.2]; exact hk.1, hk.2.symm⟩

/-! The shared-mobile pass: every edge it builds has weight 2 and joins two
employees sharing a mobile number, and it builds an edge for every such
pair. -/

theorem mobileFold_sound {records : List Employee}
    (hN : (records.map (fun r => r.Employee_ID)).Nodup) :
    EdgeKeysOK ((sharedPairs records (fun r => r.Mobile)).foldl addMobileEdge []) ∧
      ∀ e ∈ (sharedPairs records (fun r => r.Mobile)).foldl addMobileEdge [],
        e.2.weight = 2 ∧ sharesMobile records e.1.1 e.1.2 := by
  refine foldl_preserves
    (fun es : List ((String × String) × EdgeData) =>
      EdgeKeysOK es ∧ ∀ e ∈ es, e.2.weight = 2 ∧
        sharesMobile records e.1.1 e.1.2) _ _ _ ?_ ?_
  · intro es it hit hP
    obtain ⟨hOK, hW⟩ := hP
    obtain ⟨hne, ha1, ha2⟩ := sharedPairs_item hN hit
    have hsmit : sharesMobile records it.2.1 it.2.2 := by
      unfold sharesMobile
      rw [ha1, ha2]
      exact ⟨by simp, rfl⟩
    constructor
    · exact upsert_keysOK _ hne hOK
    · intro e he
      rcases upsert_mem he with ⟨_, hmem⟩ | ⟨hs, hc⟩
      · exact hW e hmem
      · have hsm : sharesMobile records e.1.1 e.1.2 := by
          exact @sharesMobile_congr records e.1 (it.2.1, it.2.2) hs hsmit
        rcases hc with ⟨d, _, he2⟩ | ⟨heq, _⟩
        · exact ⟨by rw [he2], hsm⟩
        · exact ⟨by rw [heq], hsm⟩
  · exact ⟨⟨fun e he => absurd he (List.not_mem_nil e), List.Pairwise.nil⟩,
      fun e he => absurd he (List.not_mem_nil e)⟩

theorem mobileFold_complete {records : List Employee}
    (_hN : (records.map (fun r => r.Employee_ID)).Nodup) {u v : String}
    (huv : u ≠ v) (hsm : sharesMobile records u v) :
    hasEdgeB ((sharedPairs records (fun r => r.Mobile)).foldl addMobileEdge [])
      u v = true := by
  obtain ⟨hne, heq⟩ := hsm
  rcases hm : attrOf records (fun r => r.Mobile) u with _ | m
  · exact absurd hm hne
  have hv2 : attrOf records (fun r => r.Mobile) v = some m := by rw [← heq, hm]
  rcases sharedPairs_complete hm hv2 huv with ⟨it, hit, hs⟩
  have hmain := foldl_upsert_hasEdge (fun it => it.2)
    (fun it _ => (⟨"shared_mobile", it.1, 2⟩ : EdgeData)) _ [] hit
  have hcg := @hasEdgeB_congr EdgeData
    ((sharedPairs records (fun r => r.Mobile)).foldl addMobileEdge [])
    u v it.2.1 it.2.2 hs
  rw [hcg]
  exact hmain

/-! The shared-bank pass: its complete weight and sharing characterization,
proved by induction over the remaining bank items. -/

theorem bankFold_inv (records : List Employee) :
    ∀ (I : List (String × (String × String)))
      (es : List ((String × String) × EdgeData)),
      EdgeKeysOK es →
      (∀ it ∈ I, it.2.1 ≠ it.2.2 ∧ sharesBank records it.2.1 it.2.2) →
      ((I.map (fun it => it.2)).Pairwise (fun a b => sameUB a b = false)) →
      (∀ e ∈ es,
        (e.2.weight = 2 ∧
          ((sharesMobile records e.1.1 e.1.2 ∧ ∃ it ∈ I, sameUB e.1 it.2 = true) ∨
           (sharesMobile records e.1.1 e.1.2 ∧ ¬ sharesBank records e.1.1 e.1.2) ∨
           (¬ sharesMobile records e.1.1 e.1.2 ∧ sharesBank records e.1.1 e.1.2))) ∨
        (e.2.weight = 5 ∧ sharesMobile records e.1.1 e.1.2 ∧
          sharesBank records e.1.1 e.1.2)) →
      (∀ e ∈ es, e.2.weight = 2 → ¬ sharesMobile records e.1.1 e.1.2 →
        ¬ ∃ it ∈ I, sameUB e.1 it.2 = true) →
      (∀ u v, u ≠ v → sharesMobile records u v → hasEdgeB es u v = true) →
      EdgeKeysOK (I.foldl addBankEdge es) ∧
        (∀ e ∈ I.foldl addBankEdge es,
          (e.2.weight = 2 ∧
            ((sharesMobile records e.1.1 e.1.2 ∧ ¬ sharesBank records e.1.1 e.1.2) ∨
             (¬ sharesMobile records e.1.1 e.1.2 ∧ sharesBank records e.1.1 e.1.2))) ∨
          (e.2.weight = 5 ∧ sharesMobile records e.1.1 e.1.2 ∧
            sharesBank records e.1.1 e.1.2)) ∧
        (∀ u v, u ≠ v → sharesMobile records u v →
          hasEdgeB (I.foldl addBankEdge es) u v = true) := by
  intro I
  induction I with
  | nil =>
    intro es hOK _ _ hW _ hC
    refine ⟨hOK, ?_, hC⟩
    intro e he
    rcases hW e he with ⟨hw2, hcase⟩ | h5
    · rcases hcase with ⟨_, ⟨it, hit, _⟩⟩ | hc | hc
      · exact absurd hit (List.not_mem_nil it)
      · exact Or.inl ⟨hw2, Or.inl hc⟩
      · exact Or.inl ⟨hw2, Or.inr hc⟩
    · exact Or.inr h5
  | cons it I ih =>
    intro es hOK hitems hpair hW hDD hC
    obtain ⟨hitne, hitSB⟩ := hitems it (List.mem_cons_self _ _)
    obtain ⟨hhead, htail⟩ := List.pairwise_cons.mp hpair
    simp only [List.foldl_cons]
    refine ih (addBankEdge es it) (upsert_keysOK _ hitne hOK)
      (fun it2 h2 => hitems it2 (List.mem_cons_of_mem _ h2)) htail ?_ ?_ ?_
    · -- the weight characterization survives one bank step
      intro e he
      rcases upsert_mem he with ⟨hnom, hmem⟩ | ⟨hs, hc⟩
      · rcases hW e hmem with ⟨hw2, hcase⟩ | h5
        · refine Or.inl ⟨hw2, ?_⟩
          rcases hcase with ⟨hsm, ⟨it2, hit2, hsu⟩⟩ | hc2 | hc2
          · rcases List.mem_cons.mp hit2 with rfl | hit3
            · have hnom2 : sameUB e.1 it2.2 = false := hnom
              rw [hnom2] at hsu
              cases hsu
            · exact Or.inl ⟨hsm, it2, hit3, hsu⟩
          · exact Or.inr (Or.inl hc2)
          · exact Or.inr (Or.inr hc2)
        · exact Or.inr h5
      · have hSBe : sharesBank records e.1.1 e.1.2 :=
          @sharesBank_congr records e.1 (it.2.1, it.2.2) hs hitSB
        rcases hc with ⟨d, hd, he2⟩ | ⟨heq, hnoedge⟩
        · -- strengthened edge: weight becomes 5 and it shares the mobile too
          have hSMe : sharesMobile records e.1.1 e.1.2 := by
            rcases hW (e.1, d) hd with ⟨hw2, hcase⟩ | h5
            · rcases hcase with ⟨hsm, _⟩ | ⟨hsm, _⟩ | ⟨hnsm, _⟩
              · exact hsm
              · exact hsm
              · exact absurd ⟨it, List.mem_cons_self _ _, hs⟩
                  (hDD (e.1, d) hd hw2 hnsm)
            · exact h5.2.1
          exact Or.inr ⟨by rw [he2], hSMe, hSBe⟩
        · -- freshly created bank edge: weight 2, and no shared mobile
          have hkey : e.1 = (it.2.1, it.2.2) := by rw [heq]
          have hnsm : ¬ sharesMobile records e.1.1 e.1.2 := by
            intro hsm
            have hne2 : e.1.1 ≠ e.1.2 := by rw [hkey]; exact hitne
            have h1 := hC e.1.1 e.1.2 hne2 hsm
            have h2 : hasEdgeB es e.1.1 e.1.2 = false := by
              rw [hkey]
              exact hnoedge
            rw [h2] at h1
            cases h1
          exact Or.inl ⟨by rw [heq], Or.inr (Or.inr ⟨hnsm, hSBe⟩)⟩
    · -- a weight 2 edge without shared mobile never matches a later item
      intro e he hw2 hnsm
      rcases upsert_mem he with ⟨hnom, hmem⟩ | ⟨hs, hc⟩
      · rintro ⟨it2, hit2, hsu⟩
        exact hDD e hmem hw2 hnsm ⟨it2, List.mem_cons_of_mem _ hit2, hsu⟩
      · rcases hc with ⟨d, hd, he2⟩ | ⟨heq, _⟩
        · rw [he2] at hw2
          exact absurd hw2 (by norm_num)
        · rintro ⟨it2, hit2, hsu⟩
          have hkey : e.1 = (it.2.1, it.2.2) := by rw [heq]
          have hfalse := hhead it2.2 (List.mem_map.mpr ⟨it2, hit2, rfl⟩)
          have hsu2 : sameUB it.2 it2.2 = true := by
            refine @sameUB_trans it.2 e.1 it2.2 ?_ hsu
            rw [hkey]
            exact sameUB_refl _
          rw [hfalse] at hsu2
          cases hsu2
    · intro u v huv hsm
      exact upsert_hasEdge_mono _ _ _ (hC u v huv hsm)

/-! Full characterization of the ghost edge list. -/

theorem ghostEdges_inv {records : List Employee}
    (hN : (records.map (fun r => r.Employee_ID)).Nodup) :
    EdgeKeysOK (ghostEdges records) ∧
      (∀ e ∈ ghostEdges records,
        (e.2.weight = 2 ∧
          ((sharesMobile records e.1.1 e.1.2 ∧ ¬ sharesBank records e.1.1 e.1.2) ∨
           (¬ sharesMobile records e.1.1 e.1.2 ∧ sharesBank records e.1.1 e.1.2))) ∨
        (e.2.weight = 5 ∧ sharesMobile records e.1.1 e.1.2 ∧
          sharesBank records e.1.1 e.1.2)) ∧
      (∀ u v, u ≠ v → sharesMobile records u v →
        hasEdgeB (ghostEdges records) u v = true) := by
  obtain ⟨hOK1, hW1⟩ := mobileFold_sound hN
  refine bankFold_inv records (sharedPairs records (fun r => r.Bank_Acc)) _
    hOK1 ?_ (sharedPairs_pairwise hN _) ?_ ?_ ?_
  · intro it hit
    obtain ⟨hne, ha1, ha2⟩ := sharedPairs_item hN hit
    refine ⟨hne, ?_⟩
    unfold sharesBank
    rw [ha1, ha2]
    exact ⟨by simp, rfl⟩
  · intro e he
    obtain ⟨hw2, hsm⟩ := hW1 e he
    refine Or.inl ⟨hw2, ?_⟩
    by_cases hsb : sharesBank records e.1.1 e.1.2
    · refine Or.inl ⟨hsm, ?_⟩
      obtain ⟨hbne, hbeq⟩ := hsb
      rcases hb : attrOf records (fun r => r.Bank_Acc) e.1.1 with _ | b
      · exact absurd hb hbne
      have hb2 : attrOf records (fun r => r.Bank_Acc) e.1.2 = some b := by
        rw [← hbeq, hb]
      have hne := hOK1.1 e he
      rcases sharedPairs_complete hb hb2 hne with ⟨it, hit, hs⟩
      exact ⟨it, hit, hs⟩
    · exact Or.inr (Or.inl ⟨hsm, hsb⟩)
  · intro e he hw2 hnsm
    exact absurd (hW1 e he).2 hnsm
  · intro u v huv hsm
    exact mobileFold_complete hN huv hsm

/-! Lemmas about the component partition. -/

theorem mergeParts_flatten_perm (parts : List (List String)) (u v : String) :
    (mergeParts parts u v).flatten.Perm parts.flatten := by
  unfold mergeParts
  rw [List.flatten_cons, ← List.flatten_append]
  exact List.Perm.flatten (List.filter_append_perm _ parts)

theorem componentsOf_flatten_perm (nodes : List String)
    (keys : List (String × String)) :
    (componentsOf nodes keys).flatten.Perm nodes := by
  unfold componentsOf
  have hstep : ∀ (ks : List (String × String)) (parts : List (List String)),
      parts.flatten.Perm nodes →
      (ks.foldl (fun parts k => mergeParts parts k.1 k.2) parts).flatten.Perm nodes := by
    intro ks
    induction ks with
    | nil => intro parts h; exact h
    | cons k ks ihk =>
      intro parts h
      simp only [List.foldl_cons]
      exact ihk _ ((mergeParts_flatten_perm parts k.1 k.2).trans h)
  have hbase : ∀ ns : List String, (ns.map (fun v => [v])).flatten = ns := by
    intro ns
    induction ns with
    | nil => simp
    | cons x xs ihn => simp [ihn]
  refine hstep keys _ ?_
  rw [hbase]

theorem pairwise_disjoint_unique {L : List (List String)}
    (h : L.Pairwise List.Disjoint) {x : String} {c1 c2 : List String}
    (h1 : c1 ∈ L) (h2 : c2 ∈ L) (hx1 : x ∈ c1) (hx2 : x ∈ c2) : c1 = c2 := by
  induction L with
  | nil => cases h1
  | cons c L ih =>
    obtain ⟨hd, ht⟩ := List.pairwise_cons.mp h
    rcases List.mem_cons.mp h1 with rfl | h1b
    · rcases List.mem_cons.mp h2 with rfl | h2b
      · rfl
      · exact (hd c2 h2b hx1 hx2).elim
    · rcases List.mem_cons.mp h2 with rfl | h2b
      · exact (hd c1 h1b hx2 hx1).elim
      · exact ih ht h1b h2b

theorem componentsOf_partition {nodes : List String} (hN : nodes.Nodup)
    (keys : List (String × String)) :
    ∀ x ∈ nodes, ∃ c, (c ∈ componentsOf nodes keys ∧ x ∈ c) ∧
      ∀ c2, c2 ∈ componentsOf nodes keys → x ∈ c2 → c2 = c := by
  have hperm := componentsOf_flatten_perm nodes keys
  have hnod : (componentsOf nodes keys).flatten.Nodup := hperm.nodup_iff.mpr hN
  have hdis := (List.nodup_flatten.mp hnod).2
  intro x hx
  have hxf : x ∈ (componentsOf nodes keys).flatten := hperm.mem_iff.mpr hx
  rcases List.mem_flatten.mp hxf with ⟨c, hc, hxc⟩
  exact ⟨c, ⟨hc, hxc⟩, fun c2 hc2 hxc2 => pairwise_disjoint_unique hdis hc2 hc hxc2 hxc⟩

/-! Lemmas about pyMax, the Python max over the centrality mapping. -/

theorem pyMax_foldl_spec (xs : List (String × ℚ)) (b : String × ℚ) :
    ∃ r, xs.foldl (fun best y => if best.2 < y.2 then y else best) b = r ∧
      (∀ p ∈ xs, p.2 ≤ r.2) ∧ b.2 ≤ r.2 ∧
      (r = b ∨ ∃ l1 l2, xs = l1 ++ r :: l2 ∧ b.2 < r.2 ∧ ∀ p ∈ l1, p.2 < r.2) := by
  induction xs generalizing b with
  | nil => exact ⟨b, rfl, by simp, le_refl _, Or.inl rfl⟩
  | cons y ys ih =>
    by_cases hlt : b.2 < y.2
    · obtain ⟨r, hr, h1, h2, h3⟩ := ih y
      refine ⟨r, ?_, ?_, le_of_lt (lt_of_lt_of_le hlt h2), ?_⟩
      · simp only [List.foldl_cons, if_pos hlt]
        exact hr
      · intro p hp
        rcases List.mem_cons.mp hp with rfl | hp2
        · exact h2
        · exact h1 p hp2
      · rcases h3 with rfl | ⟨l1, l2, heq, hblt, hall⟩
        · exact Or.inr ⟨[], ys, by simp, hlt, by simp⟩
        · refine Or.inr ⟨y :: l1, l2, by rw [heq, List.cons_append], lt_trans hlt hblt, ?_⟩
          intro p hp
          rcases List.mem_cons.mp hp with rfl | hp2
          · exact hblt
          · exact hall p hp2
    · obtain ⟨r, hr, h1, h2, h3⟩ := ih b
      have hyb : y.2 ≤ b.2 := le_of_not_lt hlt
      refine ⟨r, ?_, ?_, h2, ?_⟩
      · simp only [List.foldl_cons, if_neg hlt]
        exact hr
      · intro p hp
        rcases List.mem_cons.mp hp with rfl | hp2
        · exact le_trans hyb h2
        · exact h1 p hp2
      · rcases h3 with rfl | ⟨l1, l2, heq, hblt, hall⟩
        · exact Or.inl rfl
        · refine Or.inr ⟨y :: l1, l2, by rw [heq, List.cons_append], hblt, ?_⟩
          intro p hp
          rcases List.mem_cons.mp hp with rfl | hp2
          · exact lt_of_le_of_lt hyb hblt
          · exact hall p hp2

theorem pyMax_spec {l : List (String × ℚ)} (h : l ≠ []) :
    ∃ pre x post, l = pre ++ x :: post ∧ pyMax l = some x ∧
      (∀ p ∈ l, p.2 ≤ x.2) ∧ ∀ p ∈ pre, p.2 < x.2 := by
  match l with
  | [] => exact absurd rfl h
  | b :: xs =>
    obtain ⟨r, hr, h1, h2, h3⟩ := pyMax_foldl_spec xs b
    rcases h3 with rfl | ⟨l1, l2, heq, hblt, hall⟩
    · refine ⟨[], r, xs, by simp, ?_, ?_, by simp⟩
      · simp only [pyMax, hr]
      · intro p hp
        rcases List.mem_cons.mp hp with rfl | hp2
        · exact le_refl _
        · exact h1 p hp2
    · refine ⟨b :: l1, r, l2, by rw [heq, List.cons_append], ?_, ?_, ?_⟩
      · simp only [pyMax, hr]
      · intro p hp
        rcases List.mem_cons.mp hp with rfl | hp2
        · exact h2
        · exact h1 p hp2
      · intro p hp
        rcases List.mem_cons.mp hp with rfl | hp2
        · exact hblt
        · exact hall p hp2

/-! At most one stored edge per unordered pair follows from EdgeKeysOK. -/

theorem EdgeKeysOK_of_cons {e : (String × String) × α}
    {es : List ((String × String) × α)} (h : EdgeKeysOK (e :: es)) :
    EdgeKeysOK es := by
  obtain ⟨h1, h2⟩ := h
  exact ⟨fun e2 he2 => h1 e2 (List.mem_cons_of_mem _ he2),
    (List.pairwise_cons.mp h2).2⟩

theorem filter_sameU_length_le_one {es : List ((String × String) × α)}
    (h : EdgeKeysOK es) (u v : String) :
    (es.filter (fun e => sameUB e.1 (u, v))).length ≤ 1 := by
  induction es with
  | nil => simp
  | cons e es ih =>
    have hd := (List.pairwise_cons.mp h.2).1
    by_cases hs : sameUB e.1 (u, v) = true
    · rw [List.filter_cons, if_pos hs]
      have hnil : es.filter (fun e => sameUB e.1 (u, v)) = [] := by
        rw [List.filter_eq_nil_iff]
        intro e2 he2
        intro hs2
        have : sameUB e.1 e2.1 = true :=
          sameUB_trans hs (sameUB_symm hs2)
        rw [hd e2.1 (List.mem_map.mpr ⟨e2, he2, rfl⟩)] at this
        cases this
      rw [hnil]
      simp
    · rw [List.filter_cons, if_neg hs]
      exact ih (EdgeKeysOK_of_cons h)

/-! Counting subgraph edges against the complete graph. -/

theorem subgraph_keysOK {es : List ((String × String) × α)} {comp : List String}
    (h : EdgeKeysOK es) : EdgeKeysOK (subgraphEdges es comp) := by
  refine ⟨fun e he => h.1 e (List.mem_of_mem_filter he), ?_⟩
  exact List.Pairwise.sublist ((List.filter_sublist es).map Prod.fst) h.2

theorem subgraph_mem_comp {es : List ((String × String) × α)} {comp : List String}
    {e : (String × String) × α} (h : e ∈ subgraphEdges es comp) :
    e ∈ es ∧ e.1.1 ∈ comp ∧ e.1.2 ∈ comp := by
  rcases List.mem_filter.mp h with ⟨he, hcond⟩
  rw [Bool.and_eq_true] at hcond
  exact ⟨he, by simpa using hcond.1, by simpa using hcond.2⟩

theorem subgraph_mem_of {es : List ((String × String) × α)} {comp : List String}
    {e : (String × String) × α} (he : e ∈ es) (h1 : e.1.1 ∈ comp)
    (h2 : e.1.2 ∈ comp) : e ∈ subgraphEdges es comp := by
  refine List.mem_filter.mpr ⟨he, ?_⟩
  rw [Bool.and_eq_true]
  exact ⟨by simpa using h1, by simpa using h2⟩

theorem pair_finset_eq {a b c d : String} (hab : a ≠ b)
    (h : ({a, b} : Finset String) = {c, d}) : sameUB (a, b) (c, d) = true := by
  have ha : a ∈ ({c, d} : Finset String) := by rw [← h]; simp
  have hb : b ∈ ({c, d} : Finset String) := by rw [← h]; simp
  simp only [Finset.mem_insert, Finset.mem_singleton] at ha hb
  rcases ha with h1 | h1 <;> rcases hb with h2 | h2
  · exact absurd (h1.trans h2.symm) hab
  · exact sameUB_true_iff.mpr (Or.inl ⟨h1, h2⟩)
  · exact sameUB_true_iff.mpr (Or.inr ⟨h1, h2⟩)
  · exact absurd (h1.trans h2.symm) hab

theorem subgraph_count {α : Type _} {comp : List String}
    {es : List ((String × String) × α)} (hcomp : comp.Nodup)
    (hOK : EdgeKeysOK es) :
    (subgraphEdges es comp).length ≤ comp.length.choose 2 ∧
      ((subgraphEdges es comp).length = comp.length.choose 2 ↔
        SubgraphComplete comp es) := by
  have hSOK : EdgeKeysOK (subgraphEdges es comp) := subgraph_keysOK hOK
  have hpw2 : ((subgraphEdges es comp).map Prod.fst).Pairwise
      (fun k1 k2 => ({k1.1, k1.2} : Finset String) ≠ {k2.1, k2.2}) := by
    refine List.Pairwise.imp_of_mem ?_ hSOK.2
    intro k1 k2 hk1 hk2 hfalse heq
    rcases List.mem_map.mp hk1 with ⟨e1, he1, rfl⟩
    have hne1 : e1.1.1 ≠ e1.1.2 := hSOK.1 e1 he1
    have hsam := pair_finset_eq hne1 heq
    rw [hfalse] at hsam
    cases hsam
  have himg_nodup : ((subgraphEdges es comp).map
      (fun e => ({e.1.1, e.1.2} : Finset String))).Nodup := by
    have heq : (subgraphEdges es comp).map
        (fun e => ({e.1.1, e.1.2} : Finset String)) =
        ((subgraphEdges es comp).map Prod.fst).map
          (fun k => ({k.1, k.2} : Finset String)) := by
      rw [List.map_map]
      rfl
    rw [heq]
    exact List.Pairwise.map _ (fun a b h => h) hpw2
  have hsub : ((subgraphEdges es comp).map
      (fun e => ({e.1.1, e.1.2} : Finset String))).toFinset ⊆
        comp.toFinset.powersetCard 2 := by
    intro t ht
    rcases List.mem_map.mp (List.mem_toFinset.mp ht) with ⟨e, he, rfl⟩
    obtain ⟨_, h1, h2⟩ := subgraph_mem_comp he
    rw [Finset.mem_powersetCard]
    constructor
    · rw [Finset.insert_subset_iff, Finset.singleton_subset_iff]
      exact ⟨List.mem_toFinset.mpr h1, List.mem_toFinset.mpr h2⟩
    · exact Finset.card_pair (hSOK.1 e he)
  have hcard1 : ((subgraphEdges es comp).map
      (fun e => ({e.1.1, e.1.2} : Finset String))).toFinset.card =
        (subgraphEdges es comp).length := by
    rw [List.toFinset_card_of_nodup himg_nodup, List.length_map]
  have hcard2 : (comp.toFinset.powersetCard 2).card = comp.length.choose 2 := by
    rw [Finset.card_powersetCard, List.toFinset_card_of_nodup hcomp]
  have hle : (subgraphEdges es comp).length ≤ comp.length.choose 2 := by
    rw [← hcard1, ← hcard2]
    exact Finset.card_le_card hsub
  refine ⟨hle, ?_, ?_⟩
  · intro hEq
    have hset : ((subgraphEdges es comp).map
        (fun e => ({e.1.1, e.1.2} : Finset String))).toFinset =
          comp.toFinset.powersetCard 2 := by
      refine Finset.eq_of_subset_of_card_le hsub ?_
      rw [hcard1, hcard2, hEq]
    intro u hu v hv huv
    have ht : ({u, v} : Finset String) ∈ comp.toFinset.powersetCard 2 := by
      rw [Finset.mem_powersetCard]
      constructor
      · rw [Finset.insert_subset_iff, Finset.singleton_subset_iff]
        exact ⟨List.mem_toFinset.mpr hu, List.mem_toFinset.mpr hv⟩
      · exact Finset.card_pair huv
    rw [← hset] at ht
    rcases List.mem_map.mp (List.mem_toFinset.mp ht) with ⟨e, he, heq⟩
    have hsam := pair_finset_eq (hSOK.1 e he) heq
    exact hasEdgeB_true_iff.mpr ⟨e, (subgraph_mem_comp he).1, hsam⟩
  · intro hcomplete
    have hsup : comp.toFinset.powersetCard 2 ⊆ ((subgraphEdges es comp).map
        (fun e => ({e.1.1, e.1.2} : Finset String))).toFinset := by
      intro t ht
      rw [Finset.mem_powersetCard] at ht
      rcases Finset.card_eq_two.mp ht.2 with ⟨u, v, huv, rfl⟩
      have hu : u ∈ comp := List.mem_toFinset.mp (ht.1 (by simp))
      have hv : v ∈ comp := List.mem_toFinset.mp (ht.1 (by simp))
      rcases hasEdgeB_true_iff.mp (hcomplete u hu v hv huv) with ⟨e, heEs, hsam⟩
      have hends : (e.1.1 = u ∧ e.1.2 = v) ∨ (e.1.1 = v ∧ e.1.2 = u) := by
        rcases sameUB_true_iff.mp hsam with ⟨h1, h2⟩ | ⟨h1, h2⟩
        · exact Or.inl ⟨h1, h2⟩
        · exact Or.inr ⟨h1, h2⟩
      have heS : e ∈ subgraphEdges es comp := by
        rcases hends with ⟨h1, h2⟩ | ⟨h1, h2⟩
        · exact subgraph_mem_of heEs (by rw [h1]; exact hu) (by rw [h2]; exact hv)
        · exact subgraph_mem_of heEs (by rw [h1]; exact hv) (by rw [h2]; exact hu)
      refine List.mem_toFinset.mpr (List.mem_map.mpr ⟨e, heS, ?_⟩)
      rcases hends with ⟨h1, h2⟩ | ⟨h1, h2⟩
      · rw [h1, h2]
      · rw [h1, h2]
        exact Finset.pair_comm v u
    have hge := Finset.card_le_card hsup
    rw [hcard1, hcard2] at hge
    exact le_antisymm hle hge

/-! Density bounds and the completeness criterion. -/

theorem density_spec {α : Type _} {comp : List String}
    {es : List ((String × String) × α)} (hcomp : comp.Nodup)
    (hOK : EdgeKeysOK es) :
    0 ≤ density comp.length (subgraphEdges es comp).length ∧
      density comp.length (subgraphEdges es comp).length ≤ 1 ∧
      (1 < comp.length →
        (density comp.length (subgraphEdges es comp).length = 1 ↔
          SubgraphComplete comp es)) := by
  obtain ⟨hle, hiff⟩ := subgraph_count hcomp hOK
  by_cases hn : 1 < comp.length
  · have hn1 : (1 : ℕ) ≤ comp.length := le_of_lt hn
    have h2E : 2 * (subgraphEdges es comp).length ≤
        comp.length * (comp.length - 1) := by
      have := (Nat.le_div_iff_mul_le (by norm_num : 0 < 2)).mp
        (Nat.choose_two_right comp.length ▸ hle)
      omega
    have hposQ : (0 : ℚ) < (comp.length : ℚ) * ((comp.length : ℚ) - 1) := by
      have : (2 : ℚ) ≤ (comp.length : ℚ) := by exact_mod_cast hn
      nlinarith
    have hcast : ((comp.length * (comp.length - 1) : ℕ) : ℚ) =
        (comp.length : ℚ) * ((comp.length : ℚ) - 1) := by
      push_cast [Nat.cast_sub hn1]
      ring
    have hdd : density comp.length (subgraphEdges es comp).length =
        (2 * (subgraphEdges es comp).length : ℚ) /
          ((comp.length : ℚ) * ((comp.length : ℚ) - 1)) := by
      unfold density
      rw [if_pos hn]
    refine ⟨?_, ?_, fun _ => ?_⟩
    · rw [hdd]
      positivity
    · rw [hdd]
      rw [div_le_one hposQ, ← hcast]
      exact_mod_cast h2E
    · rw [hdd, div_eq_one_iff_eq (ne_of_gt hposQ), ← hcast]
      rw [show ((2 : ℚ) * ((subgraphEdges es comp).length : ℚ)) =
        ((2 * (subgraphEdges es comp).length : ℕ) : ℚ) by push_cast; ring]
      rw [Nat.cast_inj]
      constructor
      · intro hEq
        refine hiff.mp ?_
        rw [Nat.choose_two_right]
        omega
      · intro hc
        have hEq := hiff.mpr hc
        rw [Nat.choose_two_right] at hEq
        have heven : 2 ∣ comp.length * (comp.length - 1) := by
          rcases Nat.even_mul_succ_self (comp.length - 1) with ⟨k, hk⟩
          refine ⟨k, ?_⟩
          rw [Nat.sub_add_cancel hn1] at hk
          rw [mul_comm]
          omega
        rcases heven with ⟨k, hk⟩
        omega
  · have hd0 : density comp.length (subgraphEdges es comp).length = 0 := by
      unfold density
      rw [if_neg hn]
    refine ⟨by rw [hd0], by rw [hd0]; norm_num, fun h => absurd h hn⟩

/-! Cluster membership and size characterizations. -/

theorem ghostAnalyzeWith_clusters (alg : String) (records : List Employee) :
    (ghostAnalyzeWith alg records).clusters = ghostClusters records alg := rfl

theorem ghostClusters_mem {records : List Employee} {alg : String} {c : Cluster}
    (h : c ∈ ghostClusters records alg) :
    ∃ idx comp, (idx, comp) ∈ (ghostComponents records).enum ∧
      GraphFraudConfig.MIN_CLIQUE_SIZE ≤ comp.length ∧
      c = mkCluster records alg (ghostGraph records) idx comp := by
  unfold ghostClusters at h
  rcases List.mem_filterMap.mp h with ⟨⟨idx, comp⟩, hmem, heq⟩
  by_cases hlen : GraphFraudConfig.MIN_CLIQUE_SIZE ≤ comp.length
  · rw [if_pos hlen] at heq
    exact ⟨idx, comp, hmem, hlen, (Option.some.inj heq).symm⟩
  · rw [if_neg hlen] at heq
    cases heq

theorem ghostClusters_sizes (records : List Employee) (alg : String) :
    (ghostClusters records alg).map (fun c => c.size) =
      ((ghostComponents records).map List.length).filter
        (fun n => GraphFraudConfig.MIN_CLIQUE_SIZE ≤ n) := by
  unfold ghostClusters
  have hgen : ∀ (n : ℕ) (L : List (List String)),
      ((List.enumFrom n L).filterMap (fun ic =>
        if GraphFraudConfig.MIN_CLIQUE_SIZE ≤ ic.2.length then
          some (mkCluster records alg (ghostGraph records) ic.1 ic.2)
        else none)).map (fun c => c.size) =
      (L.map List.length).filter (fun k => GraphFraudConfig.MIN_CLIQUE_SIZE ≤ k) := by
    intro n L
    induction L generalizing n with
    | nil => simp
    | cons comp L ih =>
      simp only [List.enumFrom, List.filterMap_cons, List.map_cons, List.filter_cons]
      by_cases hlen : GraphFraudConfig.MIN_CLIQUE_SIZE ≤ comp.length
      · rw [if_pos hlen, if_pos (by simpa using hlen)]
        simp only [List.map_cons]
        rw [ih]
        rfl
      · rw [if_neg hlen, if_neg (by simpa using hlen)]
        rw [ih]
  exact hgen 0 (ghostComponents records)

theorem find_risky_clusters_sizes (g : GFGraph) (min_size : ℕ) :
    (find_risky_clusters g min_size).map (fun c => c.size) =
      ((componentsOf g.nodes (g.edges.map Prod.fst)).map List.length).filter
        (fun n => min_size < n) := by
  unfold find_risky_clusters
  have hgen : ∀ L : List (List String),
      ((L.filterMap (fun comp =>
        if min_size < comp.length then
          some ({ size := comp.length
                  employee_ids := comp
                  avg_degree :=
                    ((comp.map (fun v =>
                      degreeOf (subgraphEdges g.edges comp) v)).sum : ℚ) /
                      (comp.length : ℚ)
                  description :=
                    "Employees sharing contact or banking details - possible ghost or syndicate." } : RiskyCluster)
        else none)).map (fun c => c.size)) =
      (L.map List.length).filter (fun n => min_size < n) := by
    intro L
    induction L with
    | nil => simp
    | cons comp L ih =>
      simp only [List.filterMap_cons, List.map_cons, List.filter_cons]
      by_cases hlen : min_size < comp.length
      · rw [if_pos hlen, if_pos (by simpa using hlen)]
        simp only [List.map_cons]
        rw [ih]
      · rw [if_neg hlen, if_neg (by simpa using hlen)]
        rw [ih]
  exact hgen _

/-! Structural invariants of the graph_fraud.py edge list. -/

theorem gfGroupValues_ids {df : List GFEmployee} {f : GFEmployee → Option String}
    {v : String} {ids : List String} (h : (v, ids) ∈ gfGroupValues df f) :
    ids = (df.filter (fun r => asStr (f r) == v)).map (fun r => r.employee_id) := by
  unfold gfGroupValues at h
  rcases List.mem_map.mp h with ⟨w, _, heq⟩
  injection heq with h1 h2
  rw [← h2, h1]

theorem gfGroup_ids_nodup {df : List GFEmployee}
    (hN : (df.map (fun r => r.employee_id)).Nodup) {f : GFEmployee → Option String}
    {v : String} {ids : List String} (hg : (v, ids) ∈ gfGroupValues df f) :
    ids.Nodup := by
  rw [gfGroupValues_ids hg]
  exact ((List.filter_sublist df).map _).nodup hN

theorem gfConnectBy_keysOK {df : List GFEmployee}
    (hN : (df.map (fun r => r.employee_id)).Nodup) {col : String}
    {f : GFEmployee → Option String} {es : List ((String × String) × GFEdge)}
    (h : EdgeKeysOK es) : EdgeKeysOK (gfConnectBy df col f es) := by
  unfold gfConnectBy
  refine foldl_preserves EdgeKeysOK _ _ _ ?_ h
  intro es2 g hg hOK
  obtain ⟨gv, gids⟩ := g
  by_cases hcond : gv ≠ "" ∧ 1 < gids.length
  · rw [if_pos hcond]
    refine foldl_preserves EdgeKeysOK _ _ _ ?_ hOK
    intro es3 p hp hOK3
    exact upsert_keysOK _ (listPairs_irrefl (gfGroup_ids_nodup hN hg) p hp) hOK3
  · rw [if_neg hcond]
    exact hOK

theorem gfGraphOf_keysOK {df : List GFEmployee}
    (hN : (df.map (fun r => r.employee_id)).Nodup) :
    EdgeKeysOK (gfGraphOf df).edges := by
  refine gfConnectBy_keysOK hN (gfConnectBy_keysOK hN (gfConnectBy_keysOK hN ?_))
  exact ⟨fun e he => absurd he (List.not_mem_nil e), List.Pairwise.nil⟩

/-! Centrality dispatch facts. -/

theorem centralityOf_length (alg : String) (nodes : List String)
    (es : List ((String × String) × EdgeData)) :
    (centralityOf alg nodes es).length = nodes.length := by
  unfold centralityOf betweennessCentrality degreeCentrality closenessCentrality
  split_ifs <;> simp

theorem centralityOf_fallback {alg : String} (h1 : alg ≠ "betweenness")
    (h2 : alg ≠ "degree") (h3 : alg ≠ "closeness") (nodes : List String)
    (es : List ((String × String) × EdgeData)) :
    centralityOf alg nodes es = centralityOf "betweenness" nodes es := by
  unfold centralityOf
  rw [if_neg h1, if_neg h2, if_neg h3, if_pos rfl]

/-! Claim theorems. -/

/-- C1 (amended): for every flagged cluster, the kingpin selected by
max(centrality, key := centrality.get) carries the maximum score of the
mapping, but a tie is broken by the FIRST entry in the iteration order of
the mapping (the insertion order of the graph, i.e. CSV row order), not by
the lowest identifier in sorted order; the selection is a deterministic
function of the mapping.  Formally: the selected entry bounds every score
from above and every entry before it scores strictly lower. -/
theorem C1_kingpin_first_max (alg : String) (nodes : List String)
    (es : List ((String × String) × EdgeData)) (h : nodes ≠ []) :
    ∃ pre x post, centralityOf alg nodes es = pre ++ x :: post ∧
      pyMax (centralityOf alg nodes es) = some x ∧
      (∀ p ∈ centralityOf alg nodes es, p.2 ≤ x.2) ∧
      ∀ p ∈ pre, p.2 < x.2 := by
  refine pyMax_spec ?_
  intro hnil
  have hlen := centralityOf_length alg nodes es
  rw [hnil] at hlen
  exact h (List.eq_nil_of_length_eq_zero hlen.symm)

/-- C1 witness: the first-argmax property instantiated on a concrete
two-node centrality computation. -/
theorem C1_kingpin_first_max_witness :
    (["n1", "n2"] : List String) ≠ [] ∧
      (∃ pre x post, centralityOf "degree" ["n1", "n2"] [] = pre ++ x :: post ∧
        pyMax (centralityOf "degree" ["n1", "n2"] []) = some x ∧
        (∀ p ∈ centralityOf "degree" ["n1", "n2"] [], p.2 ≤ x.2) ∧
        ∀ p ∈ pre, p.2 < x.2) :=
  ⟨by decide, C1_kingpin_first_max "degree" ["n1", "n2"] [] (by decide)⟩

/-- C1 counterexample: on two employees sharing a mobile, listed with B in
the first row and A in the second, both betweenness scores tie at 0, yet
the reported kingpin is B, not the identifier A that is lowest in sorted
order (the identifiers are the single characters A and B, and A sorts
before B). -/
theorem C1_counterexample :
    ghostComponents exBA = [["B", "A"]] ∧
      centralityOf "betweenness" (subgraphNodes (ghostGraph exBA) ["B", "A"])
        (subgraphEdges (ghostGraph exBA).edges ["B", "A"]) =
          [("B", 0), ("A", 0)] ∧
      (ghostAnalyzeWith "betweenness" exBA).clusters.map
        (fun c => c.kingpin.employee_id) = ["B"] ∧
      ("A" : String) ≠ "B" ∧ ('A' : Char) < 'B' := by
  decide

/-- C2: the integrity score of the report equals
max(0, 100 - 2 * (total_flagged_records / total_records * 100)); it is
exactly 100 when no clusters are flagged, and it is monotonically
non-increasing in the count of flagged records. -/
theorem C2_integrity_score :
    (∀ (alg : String) (records : List Employee),
      (ghostAnalyzeWith alg records).integrity_score =
        integrityScore
          ((ghostAnalyzeWith alg records).clusters.map (fun c => c.size))
          records.length) ∧
    (∀ (sizes : List ℕ) (total : ℕ),
      integrityScore sizes total =
        max 0 (100 - 2 * ((sizes.sum : ℚ) / (total : ℚ) * 100))) ∧
    (∀ total : ℕ, integrityScore [] total = 100) ∧
    (∀ f1 f2 total : ℕ, f1 ≤ f2 →
      max (0 : ℚ) (100 - 2 * ((f2 : ℚ) / (total : ℚ) * 100)) ≤
        max 0 (100 - 2 * ((f1 : ℚ) / (total : ℚ) * 100))) := by
  refine ⟨fun alg records => rfl, ?_, fun total => rfl, ?_⟩
  · intro sizes total
    unfold integrityScore
    by_cases h : sizes = []
    · rw [if_pos h, h]
      simp
    · rw [if_neg h]
      congr 1
      ring
  · intro f1 f2 total h
    by_cases ht : total = 0
    · subst ht
      simp
    · have htpos : (0 : ℚ) < (total : ℚ) := by
        exact_mod_cast Nat.pos_of_ne_zero ht
      have hdiv : (f1 : ℚ) / (total : ℚ) ≤ (f2 : ℚ) / (total : ℚ) :=
        (div_le_div_iff_of_pos_right htpos).mpr (by exact_mod_cast h)
      exact max_le_max (le_refl 0) (by linarith)

/-- C2 witness: the monotonicity conjunct applied at 1 flagged versus 2
flagged records out of 4. -/
theorem C2_integrity_score_witness :
    (1 : ℕ) ≤ 2 ∧
      max (0 : ℚ) (100 - 2 * (((2 : ℕ) : ℚ) / ((4 : ℕ) : ℚ) * 100)) ≤
        max 0 (100 - 2 * (((1 : ℕ) : ℚ) / ((4 : ℕ) : ℚ) * 100)) :=
  ⟨by decide, C2_integrity_score.2.2.2 1 2 4 (by decide)⟩

/-- C3: every flagged cluster has size at least MIN_CLIQUE_SIZE and its
severity is the fixed function of (size, density): below
SUSPICIOUS_CLIQUE_SIZE it is MEDIUM, at or above it is CRITICAL exactly
when the density exceeds HIGH_DENSITY_THRESHOLD = 0.7 and HIGH otherwise;
severity depends on nothing else, so identical input yields identical
severity. -/
theorem C3_severity (records : List Employee) (alg : String) (c : Cluster)
    (h : c ∈ (ghostAnalyzeWith alg records).clusters) :
    GraphFraudConfig.MIN_CLIQUE_SIZE ≤ c.size ∧
      (c.size < GraphFraudConfig.SUSPICIOUS_CLIQUE_SIZE →
        c.severity = "MEDIUM") ∧
      (GraphFraudConfig.SUSPICIOUS_CLIQUE_SIZE ≤ c.size →
        (GraphFraudConfig.HIGH_DENSITY_THRESHOLD < c.graph_density →
          c.severity = "CRITICAL") ∧
        (c.graph_density ≤ GraphFraudConfig.HIGH_DENSITY_THRESHOLD →
          c.severity = "HIGH")) := by
  rw [ghostAnalyzeWith_clusters] at h
  rcases ghostClusters_mem h with ⟨idx, comp, _, hlen, rfl⟩
  have hsize : (mkCluster records alg (ghostGraph records) idx comp).size =
      comp.length := rfl
  have hsev : (mkCluster records alg (ghostGraph records) idx comp).severity =
      severityOf comp.length
        (mkCluster records alg (ghostGraph records) idx comp).graph_density := rfl
  refine ⟨by rw [hsize]; exact hlen, ?_, ?_⟩
  · intro hlt
    have hlt2 : comp.length < GraphFraudConfig.SUSPICIOUS_CLIQUE_SIZE := by
      rw [hsize] at hlt
      exact hlt
    rw [hsev]
    unfold severityOf
    rw [if_neg (not_le.mpr hlt2)]
  · intro hge
    have hge2 : GraphFraudConfig.SUSPICIOUS_CLIQUE_SIZE ≤ comp.length := by
      rw [hsize] at hge
      exact hge
    constructor
    · intro hd
      rw [hsev]
      unfold severityOf
      rw [if_pos hge2, if_pos hd]
    · intro hd
      rw [hsev]
      unfold severityOf
      rw [if_pos hge2, if_neg (not_lt.mpr hd)]

/-- C3 witness: the size 2 cluster of the exBA analysis is flagged with
severity MEDIUM. -/
theorem C3_severity_witness :
    c0BA ∈ (ghostAnalyzeWith "betweenness" exBA).clusters ∧
      GraphFraudConfig.MIN_CLIQUE_SIZE ≤ c0BA.size ∧
      c0BA.severity = "MEDIUM" := by
  have hmem : c0BA ∈ (ghostAnalyzeWith "betweenness" exBA).clusters := by
    have h : (ghostAnalyzeWith "betweenness" exBA).clusters = [c0BA] := rfl
    rw [h]
    exact List.mem_cons_self _ _
  have hc := C3_severity exBA "betweenness" c0BA hmem
  exact ⟨hmem, hc.1, hc.2.1 (by decide)⟩

/-- C4 (code bug): in graph_fraud.py a record with a missing mobile value
DOES receive an edge from that attribute: astype(str) turns the NaN of a
blank cell into the string "nan", which defeats the falsy-value guard of
connect_by, so two records with blank mobiles are connected with reason
"mobile".  The ghost.py variant drops blank values as the claim states
(its groupby discards NaN keys), shown by the trailing conjunct. -/
theorem C4_blank_values_connect :
    gfBlank.map (fun r => r.mobile) = [none, none] ∧
      (gfGraphOf gfBlank).edges = [(("B1", "B2"), ⟨1, "mobile"⟩)] ∧
      hasEdgeB (gfGraphOf gfBlank).edges "B1" "B2" = true ∧
      ghBlank.map (fun r => r.Mobile) = [none, none] ∧
      ghostEdges ghBlank = [] := by
  decide

/-- C5 (amended): in ghost.py a component is reported as a flagged cluster
exactly when its size is at least MIN_CLIQUE_SIZE (components exactly at
the threshold ARE reported), while in graph_fraud.py a component is
reported exactly when its size is STRICTLY greater than min_size
(components exactly at the threshold are NOT reported).  Stated as the
multiset of reported sizes being the size filter of the components. -/
theorem C5_cluster_threshold :
    (∀ (records : List Employee) (alg : String),
      (ghostClusters records alg).map (fun c => c.size) =
        ((ghostComponents records).map List.length).filter
          (fun n => GraphFraudConfig.MIN_CLIQUE_SIZE ≤ n)) ∧
    (∀ (g : GFGraph) (min_size : ℕ),
      (find_risky_clusters g min_size).map (fun c => c.size) =
        ((componentsOf g.nodes (g.edges.map Prod.fst)).map List.length).filter
          (fun n => min_size < n)) :=
  ⟨ghostClusters_sizes, find_risky_clusters_sizes⟩

/-- C5 counterexample: a graph_fraud.py component of size exactly equal to
the configured minimum cluster size 2 is not reported: the risky cluster
list is empty. -/
theorem C5_counterexample :
    (gfComponents gfTwo).map List.length = [2] ∧
      find_risky_clusters (gfGraphOf gfTwo) 2 = [] ∧
      scan_payroll_csv gfTwo 2 = ⟨2, 1, 0, []⟩ := by
  decide

/-- C6: under unique record identifiers, both constructed graphs contain no
self-loop and at most one stored edge per unordered pair of nodes
(attribute contributions merge into that edge instead of creating parallel
edges). -/
theorem C6_simple_graph :
    (∀ records : List Employee,
      (records.map (fun r => r.Employee_ID)).Nodup →
      (∀ e ∈ ghostEdges records, e.1.1 ≠ e.1.2) ∧
      (∀ u v : String,
        ((ghostEdges records).filter (fun e => sameUB e.1 (u, v))).length ≤ 1)) ∧
    (∀ df : List GFEmployee,
      (df.map (fun r => r.employee_id)).Nodup →
      (∀ e ∈ (gfGraphOf df).edges, e.1.1 ≠ e.1.2) ∧
      (∀ u v : String,
        ((gfGraphOf df).edges.filter (fun e => sameUB e.1 (u, v))).length ≤ 1)) := by
  constructor
  · intro records hN
    obtain ⟨hOK, _, _⟩ := ghostEdges_inv hN
    exact ⟨hOK.1, fun u v => filter_sameU_length_le_one hOK u v⟩
  · intro df hN
    have hOK := gfGraphOf_keysOK hN
    exact ⟨hOK.1, fun u v => filter_sameU_length_le_one hOK u v⟩

/-- C6 witness: two employees sharing both a mobile and a bank account form
a single merged edge (weight 5, accumulated connection type), never two
parallel edges, and their component has subgraph edge count 1. -/
theorem C6_simple_graph_witness :
    (exBoth.map (fun r => r.Employee_ID)).Nodup ∧
      (∀ e ∈ ghostEdges exBoth, e.1.1 ≠ e.1.2) ∧
      ((ghostEdges exBoth).filter
        (fun e => sameUB e.1 ("A", "B"))).length ≤ 1 ∧
      ghostEdges exBoth =
        [(("A", "B"), ⟨"shared_mobile,shared_bank", "111", 5⟩)] ∧
      (subgraphEdges (ghostEdges exBoth) ["A", "B"]).length = 1 := by
  have h := C6_simple_graph.1 exBoth (by decide)
  exact ⟨by decide, h.1, h.2 "A" "B", by decide, by decide⟩

/-- C7 (amended): for every duplicate-free component over a well-formed
edge list, the density if 1 < n then 2E/(n(n-1)) else 0 lies in [0, 1],
and FOR COMPONENTS WITH MORE THAN ONE NODE it equals 1 exactly when the
induced subgraph is complete.  The original claim without the size
restriction fails: a singleton component is vacuously complete but has
density 0 (see the counterexample). -/
theorem C7_density (comp : List String)
    (es : List ((String × String) × EdgeData)) (hcomp : comp.Nodup)
    (hOK : EdgeKeysOK es) :
    0 ≤ density comp.length (subgraphEdges es comp).length ∧
      density comp.length (subgraphEdges es comp).length ≤ 1 ∧
      (1 < comp.length →
        (density comp.length (subgraphEdges es comp).length = 1 ↔
          SubgraphComplete comp es)) :=
  density_spec hcomp hOK

/-- C7 witness: the density bounds and the completeness criterion applied
to the two-node component of the exBA graph. -/
theorem C7_density_witness :
    (["B", "A"] : List String).Nodup ∧ EdgeKeysOK (ghostEdges exBA) ∧
      (0 ≤ density (["B", "A"] : List String).length
          (subgraphEdges (ghostEdges exBA) ["B", "A"]).length ∧
        density (["B", "A"] : List String).length
          (subgraphEdges (ghostEdges exBA) ["B", "A"]).length ≤ 1 ∧
        (1 < (["B", "A"] : List String).length →
          (density (["B", "A"] : List String).length
            (subgraphEdges (ghostEdges exBA) ["B", "A"]).length = 1 ↔
            SubgraphComplete ["B", "A"] (ghostEdges exBA)))) :=
  ⟨by decide, by decide,
    C7_density ["B", "A"] (ghostEdges exBA) (by decide) (by decide)⟩

/-- C7 counterexample: a singleton component produced by the pipeline is
vacuously complete, yet its density is 0, not 1, so density = 1 does not
hold if and only if the subgraph is complete once size 1 components are
included. -/
theorem C7_counterexample :
    ghostComponents exSingle = [["X"]] ∧
      SubgraphComplete ["X"] (ghostEdges exSingle) ∧
      density (["X"] : List String).length
        (subgraphEdges (ghostEdges exSingle) ["X"]).length = 0 ∧
      (0 : ℚ) ≠ 1 := by
  decide

/-- C8: under unique record identifiers, the computed components partition
the node set: every record identifier lies in exactly one component
(including size 1 singletons), with no overlap between distinct
components. -/
theorem C8_partition (records : List Employee)
    (hN : (records.map (fun r => r.Employee_ID)).Nodup) :
    ∀ x ∈ records.map (fun r => r.Employee_ID),
      ∃ c, (c ∈ ghostComponents records ∧ x ∈ c) ∧
        ∀ c2, c2 ∈ ghostComponents records → x ∈ c2 → c2 = c := by
  have h2 : (ghostGraph records).nodes = records.map (fun r => r.Employee_ID) := by
    unfold ghostGraph
    exact dedupFirst_eq_self hN
  intro x hx
  exact @componentsOf_partition (ghostGraph records).nodes
    (by rw [h2]; exact hN) ((ghostEdges records).map Prod.fst) x
    (by rw [h2]; exact hx)

/-- C8 witness: in the exBA analysis the identifier A lies in exactly one
component. -/
theorem C8_partition_witness :
    (exBA.map (fun r => r.Employee_ID)).Nodup ∧
      (∃ c, (c ∈ ghostComponents exBA ∧ "A" ∈ c) ∧
        ∀ c2, c2 ∈ ghostComponents exBA → "A" ∈ c2 → c2 = c) :=
  ⟨by decide, C8_partition exBA (by decide) "A" (by decide)⟩

/-- C9 (amended): an unrecognized centrality_algorithm value does NOT fail
fast; the dispatch of ghost.py lines 166-173 silently falls back to the
weighted betweenness computation, and the analysis still returns a full
report. -/
theorem C9_fallback (alg : String) (nodes : List String)
    (es : List ((String × String) × EdgeData)) (h1 : alg ≠ "betweenness")
    (h2 : alg ≠ "degree") (h3 : alg ≠ "closeness") :
    centralityOf alg nodes es = betweennessCentrality nodes es := by
  rw [centralityOf_fallback h1 h2 h3]
  unfold centralityOf
  rw [if_pos rfl]

/-- C9 witness: the fallback equation applied to the unknown name
pagerank on the concrete exBA subgraph. -/
theorem C9_fallback_witness :
    ("pagerank" : String) ≠ "betweenness" ∧ ("pagerank" : String) ≠ "degree" ∧
      ("pagerank" : String) ≠ "closeness" ∧
      centralityOf "pagerank" ["B", "A"] (ghostEdges exBA) =
        betweennessCentrality ["B", "A"] (ghostEdges exBA) :=
  ⟨by decide, by decide, by decide,
    C9_fallback "pagerank" ["B", "A"] (ghostEdges exBA) (by decide) (by decide)
      (by decide)⟩

/-- C9 counterexample: with the unknown algorithm name pagerank the
analysis does not fail with an InvalidConfig error: it produces a complete
report whose kingpin carries the betweenness score, contradicting the
claim that a report is never produced. -/
theorem C9_counterexample :
    (ghostAnalyzeWith "pagerank" exBA).status = "WARNING" ∧
      (ghostAnalyzeWith "pagerank" exBA).total_employees = 2 ∧
      (ghostAnalyzeWith "pagerank" exBA).clusters.map
        (fun c => (c.kingpin.employee_id, c.kingpin.centrality_score,
          c.kingpin.centrality_type)) = [("B", 0, "pagerank")] := by
  decide

/-- C10: under unique record identifiers, every edge of the ghost graph has
weight 2.0 or 5.0; the weight is 5.0 exactly when the two employees share
both a mobile number and a bank account, and 2.0 exactly when they share
exactly one of the two. -/
theorem C10_edge_weights (records : List Employee)
    (hN : (records.map (fun r => r.Employee_ID)).Nodup) :
    ∀ e ∈ ghostEdges records,
      (e.2.weight = 2 ∨ e.2.weight = 5) ∧
      (e.2.weight = 5 ↔
        (sharesMobile records e.1.1 e.1.2 ∧ sharesBank records e.1.1 e.1.2)) ∧
      (e.2.weight = 2 ↔
        ((sharesMobile records e.1.1 e.1.2 ∧
            ¬ sharesBank records e.1.1 e.1.2) ∨
         (¬ sharesMobile records e.1.1 e.1.2 ∧
            sharesBank records e.1.1 e.1.2))) := by
  obtain ⟨_, hW, _⟩ := ghostEdges_inv hN
  intro e he
  rcases hW e he with ⟨hw2, hcase⟩ | ⟨hw5, hsm, hsb⟩
  · refine ⟨Or.inl hw2, ?_, ?_⟩
    · constructor
      · intro h5
        rw [hw2] at h5
        exact absurd h5 (by norm_num)
      · rintro ⟨hsm, hsb⟩
        rcases hcase with ⟨_, hnsb⟩ | ⟨hnsm, _⟩
        · exact absurd hsb hnsb
        · exact absurd hsm hnsm
    · exact ⟨fun _ => hcase, fun _ => hw2⟩
  · refine ⟨Or.inr hw5, ⟨fun _ => ⟨hsm, hsb⟩, fun _ => hw5⟩, ?_⟩
    constructor
    · intro h2
      rw [hw5] at h2
      exact absurd h2 (by norm_num)
    · rintro (⟨_, hnsb⟩ | ⟨hnsm, _⟩)
      · exact absurd hsb hnsb
      · exact absurd hsm hnsm

/-- C10 witness: the weight characterization applied to the single merged
edge of two employees sharing both attributes, whose stored weight is 5. -/
theorem C10_edge_weights_witness :
    (exBoth.map (fun r => r.Employee_ID)).Nodup ∧
      e5Both ∈ ghostEdges exBoth ∧
      ((e5Both.2.weight = 2 ∨ e5Both.2.weight = 5) ∧
        (e5Both.2.weight = 5 ↔
          (sharesMobile exBoth e5Both.1.1 e5Both.1.2 ∧
            sharesBank exBoth e5Both.1.1 e5Both.1.2)) ∧
        (e5Both.2.weight = 2 ↔
          ((sharesMobile exBoth e5Both.1.1 e5Both.1.2 ∧
              ¬ sharesBank exBoth e5Both.1.1 e5Both.1.2) ∨
           (¬ sharesMobile exBoth e5Both.1.1 e5Both.1.2 ∧
              sharesBank exBoth e5Both.1.1 e5Both.1.2)))) :=
  ⟨by decide, by decide, C10_edge_weights exBoth (by decide) e5Both (by decide)⟩
